import Mathlib

/-!
Verification of the gnark circuit frontend (package r1cs, `R1CSRefactor`) and of
the BLS12-381 PLONK prover, against its specification.

The frontend is shallowly embedded: the builder state (internal-wire counter,
emitted constraints, hint records, boolean-marking side table) is passed
explicitly, and Go panics are modelled with `Except String`.  The prime field
`F_r` is modelled as `ZMod p`.  Terms carry their coefficient value directly:
the coefficient pool interns coefficients with a value <-> ID bijection
(`intern(x) = intern(y) <-> x = y mod p`), so identifying a coefficient ID with
its field value is faithful.
-/

namespace Gnark

/-- Wire visibility tag.  `virt` is the ONE-wire sentinel used by constants. -/
inductive Vis where
  | pub
  | sec
  | internal
  | virt
deriving DecidableEq, Repr

/-- A Term packs (coefficient, variable ID, visibility).  The source packs a
coefficient ID; we carry the interned field value itself. -/
structure Term (p : ℕ) where
  coeff : ZMod p
  vid : ℕ
  vis : Vis
deriving DecidableEq

/-- A linear expression: an ordered list of terms. -/
abbrev LinExp (p : ℕ) : Type := List (Term p)

/-- Source `compiled.Variable`: a linear expression.  The shared `IsBoolean` marker is
kept in the builder-state side table (spec §9, "Shared boolean marker"). -/
structure GVar (p : ℕ) where
  linExp : LinExp p
deriving DecidableEq

/-- An R1CS constraint `L · R = O` (`newR1C(l, r, o)`). -/
structure R1C (p : ℕ) where
  L : LinExp p
  R : LinExp p
  O : LinExp p
deriving DecidableEq

/-- Hint kinds used by the embedded operations (spec §3, Hint Record). -/
inductive HintKind where
  | isZero
  | ithBit (i : ℕ)
deriving DecidableEq, Repr

/-- A hint record: kind, input linear expressions, output wire. -/
structure Hint (p : ℕ) where
  kind : HintKind
  inputs : List (LinExp p)
  outWire : ℕ
deriving DecidableEq

/-- Backend flavor selected on the builder (`cs.BackendID`). -/
inductive BackendID where
  | r1cs
  | plonk
deriving DecidableEq, Repr

/-- Builder state: fresh internal-wire counter, emitted constraints, hint
records, the boolean-marking side table (wire IDs of internal/input wires that
are already boolean-constrained), and the backend flavor. -/
structure BState (p : ℕ) where
  nbInternal : ℕ
  constraints : List (R1C p)
  hints : List (Hint p)
  booleans : List (Vis × ℕ)
  backend : BackendID
deriving DecidableEq

/-- The constant/ONE-wire linear expression with coefficient `c`
(`cs.constant`: the ONE wire scaled by `c`). -/
def constLE (p : ℕ) (c : ZMod p) : LinExp p := [⟨c, 0, Vis.virt⟩]

/-- Source `cs.one()`. -/
def oneVar (p : ℕ) : GVar p := ⟨constLE p 1⟩

/-- Source `cs.constant(c)` for a raw value: the ONE wire with coefficient `c`. -/
def constVar (p : ℕ) (c : ZMod p) : GVar p := ⟨constLE p c⟩

/-- Source `Variable.IsConstant`: every term sits on the ONE wire. -/
def GVar.isConst {p : ℕ} (v : GVar p) : Bool :=
  v.linExp.all (fun t => t.vis = Vis.virt)

/-- Source `cs.constantValue`: the value of a constant variable (sum of the ONE-wire
coefficients; a constant built by `cs.constant` has a single term). -/
def GVar.constVal {p : ℕ} (v : GVar p) : ZMod p :=
  (v.linExp.map (fun t => t.coeff)).sum

/-- Source `cs.newInternalVariable()`: allocate a fresh internal wire. -/
def newInternalVariable {p : ℕ} (st : BState p) : GVar p × BState p :=
  (⟨[⟨1, st.nbInternal, Vis.internal⟩]⟩, { st with nbInternal := st.nbInternal + 1 })

/-- Source `cs.NewHint(kind, inputs...)`: allocate a fresh internal wire solved by the
hint, and record the hint. -/
def newHint {p : ℕ} (k : HintKind) (inputs : List (GVar p)) (st : BState p) :
    GVar p × BState p :=
  let out := st.nbInternal
  (⟨[⟨1, out, Vis.internal⟩]⟩,
   { st with
     nbInternal := st.nbInternal + 1
     hints := st.hints ++ [⟨k, inputs.map GVar.linExp, out⟩] })

/-- Source `cs.negateLinExp`: negate every coefficient (a copy). -/
def negateLinExp {p : ℕ} (l : LinExp p) : LinExp p :=
  l.map (fun t => ⟨-t.coeff, t.vid, t.vis⟩)

/-- Rank used for the deterministic term order (spec §3: order by
(visibility, variable ID)). -/
def Vis.rank : Vis → ℕ
  | Vis.pub => 0
  | Vis.sec => 1
  | Vis.internal => 2
  | Vis.virt => 3

/-- Key order on terms: lexicographic on (visibility rank, variable ID). -/
def termKeyLt {p : ℕ} (s t : Term p) : Bool :=
  s.vis.rank < t.vis.rank || (s.vis.rank = t.vis.rank && s.vid < t.vid)

/-- Insert a term into a key-sorted, key-unique list, merging coefficients of
equal (visibility, variable ID) keys. -/
def insertTerm {p : ℕ} (t : Term p) : LinExp p → LinExp p
  | [] => [t]
  | u :: us =>
    if t.vis = u.vis ∧ t.vid = u.vid then ⟨t.coeff + u.coeff, u.vid, u.vis⟩ :: us
    else if termKeyLt t u then t :: u :: us
    else u :: insertTerm t us

/-- Modelled from the spec: `reduce` of the `compiled` package is not under
src/.  Spec §3: after `reduce`, at most one term per (variable ID, visibility),
zero-coefficient terms removed, deterministic order by (visibility, variable
ID). -/
def reduce {p : ℕ} (l : LinExp p) : LinExp p :=
  (l.foldr insertTerm []).filter (fun t => t.coeff ≠ 0)

/-- Wire assignment: a field value for every (visibility, wire ID).  The ONE
wire (`virt`) always evaluates to 1. -/
def wireVal {p : ℕ} (σ : Vis → ℕ → ZMod p) (v : Vis) (i : ℕ) : ZMod p :=
  match v with
  | Vis.virt => 1
  | w => σ w i

/-- Value of one term under an assignment. -/
def termVal {p : ℕ} (σ : Vis → ℕ → ZMod p) (t : Term p) : ZMod p :=
  t.coeff * wireVal σ t.vis t.vid

/-- Value of a linear expression under an assignment. -/
def evalLE {p : ℕ} (σ : Vis → ℕ → ZMod p) (l : LinExp p) : ZMod p :=
  (l.map (termVal σ)).sum

/-- Value of a variable under an assignment. -/
def evalVar {p : ℕ} (σ : Vis → ℕ → ZMod p) (v : GVar p) : ZMod p :=
  evalLE σ v.linExp

/-- Satisfaction of one R1CS constraint: `⟨L⟩ · ⟨R⟩ = ⟨O⟩`. -/
def satR1C {p : ℕ} (σ : Vis → ℕ → ZMod p) (c : R1C p) : Prop :=
  evalLE σ c.L * evalLE σ c.R = evalLE σ c.O

/-- Satisfaction of every constraint of a builder state. -/
def SatAll {p : ℕ} (σ : Vis → ℕ → ZMod p) (st : BState p) : Prop :=
  ∀ c ∈ st.constraints, satR1C σ c

/-- Source `newR1C(l, r, o)`. -/
def newR1C {p : ℕ} (l r o : GVar p) : R1C p := ⟨l.linExp, r.linExp, o.linExp⟩

/-- Source `cs.addConstraint` / direct append to `cs.Constraints` (debug info is not
modelled). -/
def addConstraintR {p : ℕ} (c : R1C p) (st : BState p) : BState p :=
  { st with constraints := st.constraints ++ [c] }

/-- Source `Add(i1, i2, in...)` (src/unnamed/part_000, lines 36-62): concatenate the
operands' linear expressions and reduce; for the PLONK flavor a reduced
expression of length ≠ 1 is bound to a fresh internal wire by the single
constraint `one · res = _res`. -/
def Add {p : ℕ} (i1 i2 : GVar p) (rest : List (GVar p)) (st : BState p) :
    GVar p × BState p :=
  let vars := i1 :: i2 :: rest
  let res : GVar p := ⟨reduce (vars.map GVar.linExp).flatten⟩
  match st.backend with
  | BackendID.plonk =>
    if res.linExp.length = 1 then (res, st)
    else
      let a := newInternalVariable st
      (a.1, addConstraintR (newR1C (oneVar p) res a.1) a.2)
  | BackendID.r1cs => (res, st)

/-- Source `Sub(i1, i2, in...)` (src/unnamed/part_000, lines 81-113): like `Add` with
every operand but the first negated. -/
def Sub {p : ℕ} (i1 i2 : GVar p) (rest : List (GVar p)) (st : BState p) :
    GVar p × BState p :=
  let res : GVar p :=
    ⟨reduce (i1.linExp ++ ((i2 :: rest).map (fun v => negateLinExp v.linExp)).flatten)⟩
  match st.backend with
  | BackendID.plonk =>
    if res.linExp.length = 1 then (res, st)
    else
      let a := newInternalVariable st
      (a.1, addConstraintR (newR1C (oneVar p) res a.1) a.2)
  | BackendID.r1cs => (res, st)

/-- Source `Neg(i)` (src/unnamed/part_000, lines 65-78): constants fold, otherwise
coefficient-wise negation.  (Named `NegV` because `Neg` is Lean's negation
class.) -/
def NegV {p : ℕ} (i : GVar p) : GVar p :=
  if i.isConst then constVar p (-i.constVal) else ⟨negateLinExp i.linExp⟩

/-- Source `mulConstant(v1, constant)` (src/unnamed/part_000, lines 154-181): rescale
the coefficients in place.  The source switches on the reserved coefficient
IDs, computing `coeff * lambda` in every branch. -/
def mulConstant {p : ℕ} (v1 c : GVar p) : GVar p :=
  ⟨v1.linExp.map (fun t => ⟨t.coeff * c.constVal, t.vid, t.vis⟩)⟩

/-- The pairwise `mul` closure inside `Mul` (src/unnamed/part_000, lines
119-143): non-constant × non-constant allocates a wire and emits `v1 · v2 = res`;
constant × constant folds; mixed rescales coefficients with no constraint. -/
def mul2 {p : ℕ} (v1 v2 : GVar p) (st : BState p) : GVar p × BState p :=
  if !v1.isConst && !v2.isConst then
    let a := newInternalVariable st
    (a.1, addConstraintR (newR1C v1 v2 a.1) a.2)
  else if v1.isConst && v2.isConst then
    (constVar p (v1.constVal * v2.constVal), st)
  else if v1.isConst then
    (mulConstant v2 v1, st)
  else
    (mulConstant v1 v2, st)

/-- Source `Mul(i1, i2, in...)` (src/unnamed/part_000, lines 116-152): left fold of
the pairwise multiply. -/
def Mul {p : ℕ} (i1 i2 : GVar p) (rest : List (GVar p)) (st : BState p) :
    GVar p × BState p :=
  rest.foldl (fun acc v => mul2 acc.1 v acc.2) (mul2 i1 i2 st)

/-- Source `Inverse(i1)` (src/unnamed/part_000, lines 184-205): a constant 0 faults at
build time; a non-zero constant folds to its modular inverse with no
constraint; otherwise allocate `res` and emit `res · i1 = 1`. -/
def Inverse {p : ℕ} (i1 : GVar p) (st : BState p) :
    Except String (GVar p × BState p) :=
  if i1.isConst then
    if i1.constVal = 0 then Except.error "inverse by constant(0)"
    else Except.ok (constVar p i1.constVal⁻¹, st)
  else
    let a := newInternalVariable st
    Except.ok (a.1, addConstraintR (newR1C a.1 i1 (oneVar p)) a.2)

/-- Source `Div(i1, i2)` (src/unnamed/part_000, lines 208-239): non-constant divisor
emits `v2 · v2Inv = 1` and `v1 · v2Inv = res`; a constant divisor 0 faults at
build time; constants fold; a non-constant dividend is rescaled by the
divisor's inverse. -/
def Div {p : ℕ} (i1 i2 : GVar p) (st : BState p) :
    Except String (GVar p × BState p) :=
  if !i2.isConst then
    let a := newInternalVariable st
    let b := newInternalVariable a.2
    let st3 := addConstraintR (newR1C i2 b.1 (oneVar p)) b.2
    let st4 := addConstraintR (newR1C i1 b.1 a.1) st3
    Except.ok (a.1, st4)
  else if i2.constVal = 0 then Except.error "div by constant(0)"
  else if i1.isConst then
    Except.ok (constVar p (i2.constVal⁻¹ * i1.constVal), st)
  else
    Except.ok (mulConstant i1 (constVar p i2.constVal⁻¹), st)

/-- Source `DivUnchecked(i1, i2)` (src/unnamed/part_000, lines 241-270): non-constant
divisor emits only `v2 · res = v1` (no check that the divisor is non-zero); the
constant paths are the same as `Div`, including the fault on a constant 0. -/
def DivUnchecked {p : ℕ} (i1 i2 : GVar p) (st : BState p) :
    Except String (GVar p × BState p) :=
  if !i2.isConst then
    let a := newInternalVariable st
    Except.ok (a.1, addConstraintR (newR1C i2 a.1 i1) a.2)
  else if i2.constVal = 0 then Except.error "div by constant(0)"
  else if i1.isConst then
    Except.ok (constVar p (i2.constVal⁻¹ * i1.constVal), st)
  else
    Except.ok (mulConstant i1 (constVar p i2.constVal⁻¹), st)

/-- Modelled from the spec: the R1CS-flavor `AssertIsBoolean` is not under
src/.  Spec §4.2: fast-path when the wire is already marked boolean
(idempotent); otherwise emit `a · (1 − a) = 0` and mark the wire; §6/§7: a
non-0/1 constant in a boolean context fails fast.  The shared marker is the
side table keyed by wire ID (spec §9). -/
def AssertIsBoolean {p : ℕ} (v : GVar p) (st : BState p) :
    Except String (BState p) :=
  if v.isConst then
    if v.constVal = 0 ∨ v.constVal = 1 then Except.ok st
    else Except.error "assertIsBoolean failed on constant"
  else
    match v.linExp with
    | [] => Except.ok st
    | t :: _ =>
      if (t.vis, t.vid) ∈ st.booleans then Except.ok st
      else
        Except.ok
          { st with
            constraints := st.constraints ++
              [⟨v.linExp, constLE p 1 ++ negateLinExp v.linExp, constLE p 0⟩]
            booleans := st.booleans ++ [(t.vis, t.vid)] }

/-- Modelled from the spec: the R1CS-flavor `AssertIsEqual` is not under src/.
Spec §4.2: constant/constant compares; else emits `1 · (a − b) = 0`. -/
def AssertIsEqual {p : ℕ} (a b : GVar p) (st : BState p) :
    Except String (BState p) :=
  if a.isConst && b.isConst then
    if a.constVal = b.constVal then Except.ok st
    else Except.error "assertIsEqual failed on constants"
  else
    Except.ok
      (addConstraintR
        ⟨constLE p 1, reduce (a.linExp ++ negateLinExp b.linExp), constLE p 0⟩ st)

/-- Source `IsZero(i1)` (src/unnamed/part_000, lines 336-363): constants fold to 1 or
0; otherwise allocate the hint wire `m` (solved as `1 − a^(p−1)`), emit
`a · m = 0`, assert `m` boolean, and assert `(m + a)` has an inverse. -/
def IsZero {p : ℕ} (i1 : GVar p) (st : BState p) :
    Except String (GVar p × BState p) :=
  if i1.isConst then
    if i1.constVal = 0 then Except.ok (constVar p 1, st)
    else Except.ok (constVar p 0, st)
  else
    let a := newHint HintKind.isZero [i1] st
    let st2 := addConstraintR (newR1C i1 a.1 (constVar p 0)) a.2
    match AssertIsBoolean a.1 st2 with
    | Except.error e => Except.error e
    | Except.ok st3 =>
      let b := Add a.1 i1 [] st3
      match Inverse b.1 b.2 with
      | Except.error e => Except.error e
      | Except.ok r => Except.ok (a.1, r.2)

/-- Source `Select(i0, i1, i2)` (src/unnamed/part_000, lines 475-505): assert the
selector boolean; fold when both branches are constant; special-case a
constant-0 first branch as `(1 − s) · i2`; otherwise `s · (i1 − i2) + i2`. -/
def Select {p : ℕ} (i0 i1 i2 : GVar p) (st : BState p) :
    Except String (GVar p × BState p) :=
  match AssertIsBoolean i0 st with
  | Except.error e => Except.error e
  | Except.ok st1 =>
    if i1.isConst && i2.isConst then
      let diff := i1.constVal - i2.constVal
      let a := Mul i0 (constVar p diff) [] st1
      Except.ok (Add a.1 i2 [] a.2)
    else if i1.isConst && i1.constVal = 0 then
      let v := Sub (constVar p 1) i0 [] st1
      Except.ok (Mul v.1 i2 [] v.2)
    else
      let v := Sub i1 i2 [] st1
      let w := Mul i0 v.1 [] v.2
      Except.ok (Add w.1 i2 [] w.2)

/-- The per-bit loop body of `toBinary` (src/unnamed/part_000, lines 412-419):
for each index, allocate the `IthBit` hint wire, scale it by `2^i`
(`cs.Mul(b[i], c)` with a constant rescales, emitting no constraint), and
boolean-constrain it unless `skipBool` (the source `unsafe` flag). -/
def toBinaryBits {p : ℕ} (a : GVar p) (skipBool : Bool) :
    List ℕ → BState p → Except String ((List (GVar p) × List (GVar p)) × BState p)
  | [], st => Except.ok (([], []), st)
  | i :: is, st =>
    let b := newHint (HintKind.ithBit i) [a] st
    let sbi := mulConstant b.1 (constVar p (2 ^ i))
    let next : BState p → Except String ((List (GVar p) × List (GVar p)) × BState p) :=
      fun st2 =>
        match toBinaryBits a skipBool is st2 with
        | Except.error e => Except.error e
        | Except.ok r => Except.ok ((b.1 :: r.1.1, sbi :: r.1.2), r.2)
    if skipBool then next b.2
    else
      match AssertIsBoolean b.1 b.2 with
      | Except.error e => Except.error e
      | Except.ok st2 => next st2

/-- Source `toBinary(a, nbBits, unsafe)` (src/unnamed/part_000, lines 398-435) for a
non-constant `a`: run the bit loop, then constrain `Σ 2^i·b[i] = a`.  For
`nbBits = 1` the source asserts `sb[0] = a` and then calls `AssertIsEqual` on a
nil `Σbi` (never assigned in that branch), which faults when the nil interface
is converted; for `nbBits = 0` it indexes `sb[0]` out of range.  Both faults
are modelled as errors. -/
def toBinaryB {p : ℕ} (a : GVar p) (nbBits : ℕ) (skipBool : Bool) (st : BState p) :
    Except String (List (GVar p) × BState p) :=
  match toBinaryBits a skipBool (List.range nbBits) st with
  | Except.error e => Except.error e
  | Except.ok r =>
    match nbBits, r.1.2 with
    | 0, _ => Except.error "index out of range"
    | 1, sb0 :: _ =>
      match AssertIsEqual sb0 a r.2 with
      | Except.error e => Except.error e
      | Except.ok _ => Except.error "fromInterface: nil"
    | _ + 2, sb0 :: sb1 :: sbrest =>
      let s := Add sb0 sb1 sbrest r.2
      match AssertIsEqual s.1 a s.2 with
      | Except.error e => Except.error e
      | Except.ok st2 => Except.ok (r.1.1, st2)
    | _ + 1, [] => Except.error "index out of range"
    | _ + 2, _ :: [] => Except.error "index out of range"

/-- Source `ToBinary(i1, n)` (src/unnamed/part_000, lines 370-395): a constant unpacks
to constant bit variables (`c.Bit(i)`), touching nothing in the builder;
otherwise defer to `toBinary` with boolean-constrained bits. -/
def ToBinary {p : ℕ} (i1 : GVar p) (nbBits : ℕ) (st : BState p) :
    Except String (List (GVar p) × BState p) :=
  if i1.isConst then
    Except.ok
      ((List.range nbBits).map
        (fun i => constVar p (if i1.constVal.val.testBit i then 1 else 0)), st)
  else toBinaryB i1 nbBits false st

/-- The loop body of `FromBinary` (src/unnamed/part_000, lines 463-469): for
each bit (with its power of two), rescale by the constant power
(`cs.Mul(c, b[i])`, no constraint), add into the accumulator, and
boolean-assert the bit. -/
def fromBinaryLoop {p : ℕ} :
    List (GVar p × ℕ) → GVar p → BState p → Except String (GVar p × BState p)
  | [], res, st => Except.ok (res, st)
  | (bi, i) :: rest, res, st =>
    let v := mul2 (constVar p (2 ^ i)) bi st
    let r := Add v.1 res [] v.2
    match AssertIsBoolean bi r.2 with
    | Except.error e => Except.error e
    | Except.ok st2 => fromBinaryLoop rest r.1 st2

/-- Source `FromBinary(b...)` (src/unnamed/part_000, lines 447-472): returns
`Σ 2^i·b[i]`, boolean-asserting every input bit. -/
def FromBinary {p : ℕ} (b : List (GVar p)) (st : BState p) :
    Except String (GVar p × BState p) :=
  fromBinaryLoop (b.zip (List.range b.length)) (constVar p 0) st

/-- State extension: during building, constraints are only appended. -/
def Extends {p : ℕ} (st st2 : BState p) : Prop :=
  ∃ d, st2.constraints = st.constraints ++ d

/-- The boolean constraint `v · (1 − v) = 0` emitted by `AssertIsBoolean`. -/
def boolC {p : ℕ} (v : GVar p) : R1C p :=
  ⟨v.linExp, constLE p 1 ++ negateLinExp v.linExp, constLE p 0⟩

/-- Total coefficient carried by the wire `(vs, id)` in a linear expression. -/
def keySum {p : ℕ} (l : LinExp p) (vs : Vis) (id : ℕ) : ZMod p :=
  ((l.filter (fun t => t.vis = vs ∧ t.vid = id)).map Term.coeff).sum

/-- Modelled from the spec: the solver-side `hint.IsZero` function (the hint
registry is not under src/).  Spec §3 and the source comment at IsZero:
`m = 1 − a^(modulus−1)`. -/
def isZeroHintVal {p : ℕ} (a : ZMod p) : ZMod p := 1 - a ^ (p - 1)

/-- Modelled from the spec: the solver-side `hint.IthBit` function (the hint
registry is not under src/).  Spec §3: the `IthBit(i)` hint kind returns bit
`i` of its input. -/
def ithBitVal {p : ℕ} (a : ZMod p) (i : ℕ) : ZMod p :=
  if a.val.testBit i then 1 else 0

/-- Solver values of the bit wires allocated by `ToBinary(a, n)`:
`b[i] = IthBit(a, i)`, little endian. -/
def toBinaryVal {p : ℕ} (a : ZMod p) (n : ℕ) : List (ZMod p) :=
  (List.range n).map (ithBitVal a)

/-- The accumulation of `FromBinary` at solver values: `res = Σ 2^i · b[i]`
with the power doubling along the loop. -/
def fromBinaryValAux {p : ℕ} : List (ZMod p) → ℕ → ZMod p
  | [], _ => 0
  | b :: bs, i => 2 ^ i * b + fromBinaryValAux bs (i + 1)

/-- Solver value returned by `FromBinary(bits...)`. -/
def fromBinaryVal {p : ℕ} (bits : List (ZMod p)) : ZMod p :=
  fromBinaryValAux bits 0

/-- The carry sequence of `mustBeLessOrEqCst`
(src/frontend/cs/plonk/assertions.go, lines 174-184), indexed by the number
`j` of already-processed high bits: `P 0 = p[nbBits] = 1` and
`P (j+1) = P j · a_i` when bit `i = nbBits−1−j` of the bound is 1, else
`P (j+1) = P j`.  (The source leaves `p[i]` unassigned below the trailing-ones
index `t`; those entries are never referenced by a constraint, and this total
recurrence agrees with the source wherever `p[i+1]` is read.) -/
def leqPofJ {p : ℕ} (bound nbBits : ℕ) (ab : ℕ → ZMod p) : ℕ → ZMod p
  | 0 => 1
  | j + 1 =>
    if bound.testBit (nbBits - 1 - j) then
      leqPofJ bound nbBits ab j * ab (nbBits - 1 - j)
    else
      leqPofJ bound nbBits ab j

/-- The source's `p[i]`, recovered from the processed-count form. -/
def pVal {p : ℕ} (bound nbBits : ℕ) (ab : ℕ → ZMod p) (i : ℕ) : ZMod p :=
  leqPofJ bound nbBits ab (nbBits - i)

/-- Value semantics of the per-bit constraint emitted by `mustBeLessOrEqCst`
(src/frontend/cs/plonk/assertions.go, lines 186-208).  Bound bit 0: the gate
`addPlonkConstraint(l, a_i, 0, qL=0, qR=0, qM=1·1, qO=0, qK=0)` with
`l = Sub(1, p[i+1], aBits[i])`, i.e. `(1 − p[i+1] − a_i) · a_i = 0`.  Bound
bit 1: `AssertIsBoolean(a_i)`, i.e. `a_i · (1 − a_i) = 0`. -/
def leqGate {p : ℕ} (bound nbBits : ℕ) (ab : ℕ → ZMod p) (i : ℕ) : Prop :=
  if bound.testBit i then ab i * (1 - ab i) = 0
  else (1 - pVal bound nbBits ab (i + 1) - ab i) * ab i = 0

/-- All per-bit constraints of `mustBeLessOrEqCst` hold. -/
def leqConstraintsOk {p : ℕ} (bound nbBits : ℕ) (ab : ℕ → ZMod p) : Prop :=
  ∀ i, i < nbBits → leqGate bound nbBits ab i

/-- Value of the bit-decomposition sum constraint `Σ 2^i·a_i = a` emitted by
`toBinary(a, nbBits, true)` inside `mustBeLessOrEqCst`. -/
def bitsSumF {p : ℕ} (n : ℕ) (ab : ℕ → ZMod p) : ZMod p :=
  ∑ i ∈ Finset.range n, 2 ^ i * ab i

/-- The assignment taking each bit wire to the corresponding bit of the
bound. -/
def boundBitAssign (p : ℕ) (bound : ℕ) : ℕ → ZMod p :=
  fun i => if bound.testBit i then 1 else 0

/-- Weighted natural-number sum of the `j` highest bit values. -/
def hiSumN {p : ℕ} (nbBits : ℕ) (ab : ℕ → ZMod p) (j : ℕ) : ℕ :=
  ∑ k ∈ Finset.range j, 2 ^ (nbBits - 1 - k) * (ab (nbBits - 1 - k)).val

/-- Weighted natural-number sum of the `j` highest bits of the bound. -/
def hiBoundN (bound nbBits : ℕ) (j : ℕ) : ℕ :=
  ∑ k ∈ Finset.range j,
    2 ^ (nbBits - 1 - k) * (if bound.testBit (nbBits - 1 - k) then 1 else 0)

/-- One event of the Fiat–Shamir transcript: absorbing bytes bound to a
challenge, or deriving a challenge. -/
inductive FSEvent where
  | bind (challenge : String) (value : ℕ)
  | compute (challenge : String)
deriving DecidableEq, Repr

/-- The Fiat–Shamir interaction sequence of `Prove`
(src/unnamed/part_001, lines 107-321), with the marshaled commitment bytes
abstracted as opaque values.  The commitments are computed on worker
goroutines, but every `fs.Bind` / `fs.ComputeChallenge` call happens on the
main control path in this program order, each bind after awaiting the
corresponding commitment. -/
def proveTranscript (lro0 lro1 lro2 zc h0 h1 h2 : ℕ) : List FSEvent :=
  [FSEvent.bind "gamma" lro0, FSEvent.bind "gamma" lro1, FSEvent.bind "gamma" lro2,
   FSEvent.compute "gamma",
   FSEvent.bind "alpha" zc,
   FSEvent.compute "alpha",
   FSEvent.bind "zeta" h0, FSEvent.bind "zeta" h1, FSEvent.bind "zeta" h2,
   FSEvent.compute "zeta"]

/-- The hash function name passed to `fiatshamir.NewTranscript` in `Prove`. -/
def proveFSHash : String := "SHA256"

/-- The challenge labels passed to `fiatshamir.NewTranscript` in `Prove`. -/
def proveChallengeLabels : List String := ["gamma", "alpha", "zeta"]

/-- Is this event the derivation of the given challenge? -/
def isComputeOf (label : String) : FSEvent → Bool
  | FSEvent.compute l => l = label
  | FSEvent.bind _ _ => false

/-- The values absorbed under a given challenge label, in order. -/
def bindsOf (label : String) (evs : List FSEvent) : List ℕ :=
  evs.filterMap fun e =>
    match e with
    | FSEvent.bind l v => if l = label then some v else none
    | FSEvent.compute _ => none

/-- The values absorbed under a label before that challenge is first
derived. -/
def absorbedBeforeChallenge (evs : List FSEvent) (label : String) : List ℕ :=
  bindsOf label (evs.takeWhile (fun e => !isComputeOf label e))

/-- Horner evaluation of a coefficient list (low degree first), as
`polynomial.Eval`. -/
def polyEvalL {p : ℕ} (l : List (ZMod p)) (x : ZMod p) : ZMod p :=
  l.foldr (fun c acc => c + x * acc) 0

/-- One iteration of the blinding loop of `blindPoly`
(src/unnamed/part_001, lines 443-446): `res[i] -= b[i]; res[rou+i] += b[i]`. -/
def blindStep {p : ℕ} (blinding : List (ZMod p)) (rou : ℕ)
    (r : List (ZMod p)) (i : ℕ) : List (ZMod p) :=
  let r1 := r.set i (r.getD i 0 - blinding.getD i 0)
  r1.set (rou + i) (r1.getD (rou + i) 0 + blinding.getD i 0)

/-- Source `blindPoly(cp, rou, bo)` (src/unnamed/part_001, lines 419-449) with the
random draws (`SetRandom`) passed explicitly as `blinding`.  The source
re-slices `cp` up to `rou+bo+1` within its capacity; callers allocate with
`make`, so the extra entries are zeros, modelled by right-padding. -/
def blindPoly {p : ℕ} (cp : List (ZMod p)) (rou bo : ℕ)
    (blinding : List (ZMod p)) : List (ZMod p) :=
  (List.range (bo + 1)).foldl (blindStep blinding rou)
    (cp ++ List.replicate (rou + bo + 1 - cp.length) 0)

/-- The `(rou, bo)` arguments of the four `blindPoly` calls made by `Prove`,
in program order (src/unnamed/part_001, lines 152-154 and 243): the three wire
polynomials with blinding order 1, then `z` with blinding order 2. -/
def proveBlindCalls (n : ℕ) : List (ℕ × ℕ) := [(n, 1), (n, 1), (n, 1), (n, 2)]

/-! ## Basic evaluation lemmas -/

theorem evalLE_nil {p : ℕ} (σ : Vis → ℕ → ZMod p) : evalLE σ ([] : LinExp p) = 0 := rfl

theorem evalLE_cons {p : ℕ} (σ : Vis → ℕ → ZMod p) (t : Term p) (l : LinExp p) :
    evalLE σ (t :: l) = termVal σ t + evalLE σ l := by
  simp [evalLE]

theorem evalLE_append {p : ℕ} (σ : Vis → ℕ → ZMod p) (l₁ l₂ : LinExp p) :
    evalLE σ (l₁ ++ l₂) = evalLE σ l₁ + evalLE σ l₂ := by
  simp [evalLE]

theorem evalLE_insertTerm {p : ℕ} (σ : Vis → ℕ → ZMod p) (t : Term p) (l : LinExp p) :
    evalLE σ (insertTerm t l) = termVal σ t + evalLE σ l := by
  induction l with
  | nil => simp [insertTerm, evalLE]
  | cons u us ih =>
    by_cases hk : t.vis = u.vis ∧ t.vid = u.vid
    · unfold insertTerm
      rw [if_pos hk]
      rcases hk with ⟨h1, h2⟩
      simp only [evalLE_cons, termVal, h1, h2]
      ring
    · by_cases hlt : termKeyLt t u
      · simp [insertTerm, hk, hlt, evalLE_cons]
      · unfold insertTerm
        rw [if_neg hk, if_neg hlt]
        simp only [evalLE_cons, ih]
        ring

theorem evalLE_filter_ne_zero {p : ℕ} (σ : Vis → ℕ → ZMod p) (l : LinExp p) :
    evalLE σ (l.filter (fun t => t.coeff ≠ 0)) = evalLE σ l := by
  induction l with
  | nil => rfl
  | cons t ts ih =>
    simp only [decide_not] at ih ⊢
    by_cases h : t.coeff = 0
    · have ht : termVal σ t = 0 := by simp [termVal, h]
      simp [List.filter_cons, h, evalLE_cons, ih, ht]
    · simp [List.filter_cons, h, evalLE_cons, ih]

/-- The spec-modelled `reduce` preserves the value of the linear expression. -/
theorem evalLE_reduce {p : ℕ} (σ : Vis → ℕ → ZMod p) (l : LinExp p) :
    evalLE σ (reduce l) = evalLE σ l := by
  unfold reduce
  rw [evalLE_filter_ne_zero]
  induction l with
  | nil => rfl
  | cons t ts ih => simp [List.foldr, evalLE_insertTerm, ih, evalLE_cons]

theorem evalLE_negate {p : ℕ} (σ : Vis → ℕ → ZMod p) (l : LinExp p) :
    evalLE σ (negateLinExp l) = -evalLE σ l := by
  induction l with
  | nil => simp [negateLinExp, evalLE]
  | cons t ts ih =>
    simp only [negateLinExp, List.map, evalLE_cons] at *
    have : termVal σ (⟨-t.coeff, t.vid, t.vis⟩ : Term p) = -termVal σ t := by
      simp [termVal, wireVal]
    rw [this, ih]
    ring

theorem evalLE_constLE {p : ℕ} (σ : Vis → ℕ → ZMod p) (c : ZMod p) :
    evalLE σ (constLE p c) = c := by
  simp [constLE, evalLE, termVal, wireVal]

theorem evalLE_flatten {p : ℕ} (σ : Vis → ℕ → ZMod p) (ls : List (LinExp p)) :
    evalLE σ ls.flatten = (ls.map (evalLE σ)).sum := by
  induction ls with
  | nil => rfl
  | cons l ls ih => simp [List.flatten_cons, evalLE_append, ih]

theorem evalLE_all_virt {p : ℕ} (σ : Vis → ℕ → ZMod p) (l : LinExp p)
    (h : l.all (fun t => t.vis = Vis.virt) = true) :
    evalLE σ l = (l.map Term.coeff).sum := by
  induction l with
  | nil => rfl
  | cons t ts ih =>
    simp only [List.all_cons, Bool.and_eq_true] at h
    have hv : t.vis = Vis.virt := by
      have := h.1
      simpa using this
    simp [evalLE_cons, termVal, hv, wireVal, ih h.2]

/-- A constant variable evaluates to its constant value. -/
theorem evalVar_isConst {p : ℕ} (σ : Vis → ℕ → ZMod p) (v : GVar p)
    (h : v.isConst = true) : evalVar σ v = v.constVal :=
  evalLE_all_virt σ v.linExp h

theorem evalVar_constVar {p : ℕ} (σ : Vis → ℕ → ZMod p) (c : ZMod p) :
    evalVar σ (constVar p c) = c :=
  evalLE_constLE σ c

theorem constVal_constVar {p : ℕ} (c : ZMod p) : (constVar p c).constVal = c := by
  simp [constVar, constLE, GVar.constVal]

theorem isConst_constVar {p : ℕ} (c : ZMod p) : (constVar p c).isConst = true := rfl

theorem evalLE_map_scale {p : ℕ} (σ : Vis → ℕ → ZMod p) (l : LinExp p) (lam : ZMod p) :
    evalLE σ (l.map (fun t => (⟨t.coeff * lam, t.vid, t.vis⟩ : Term p))) =
      lam * evalLE σ l := by
  induction l with
  | nil => simp [evalLE]
  | cons t ts ih =>
    simp only [List.map_cons, evalLE_cons, ih, termVal]
    ring

theorem evalVar_mulConstant {p : ℕ} (σ : Vis → ℕ → ZMod p) (v c : GVar p) :
    evalVar σ (mulConstant v c) = c.constVal * evalVar σ v :=
  evalLE_map_scale σ v.linExp c.constVal

/-! ## State extension and constraint satisfaction -/

theorem extends_refl {p : ℕ} (st : BState p) : Extends st st :=
  ⟨[], by simp⟩

theorem extends_trans {p : ℕ} {s1 s2 s3 : BState p}
    (h1 : Extends s1 s2) (h2 : Extends s2 s3) : Extends s1 s3 := by
  obtain ⟨d1, e1⟩ := h1
  obtain ⟨d2, e2⟩ := h2
  exact ⟨d1 ++ d2, by rw [e2, e1, List.append_assoc]⟩

theorem extends_addConstraintR {p : ℕ} (c : R1C p) (st : BState p) :
    Extends st (addConstraintR c st) :=
  ⟨[c], rfl⟩

theorem mem_addConstraintR {p : ℕ} (c : R1C p) (st : BState p) :
    c ∈ (addConstraintR c st).constraints := by
  simp [addConstraintR]

theorem satAll_mono {p : ℕ} {σ : Vis → ℕ → ZMod p} {st st2 : BState p}
    (h : Extends st st2) (hs : SatAll σ st2) : SatAll σ st := by
  obtain ⟨d, e⟩ := h
  intro c hc
  exact hs c (by rw [e]; exact List.mem_append_left _ hc)

theorem mem_of_extends {p : ℕ} {st st2 : BState p} {c : R1C p}
    (h : Extends st st2) (hc : c ∈ st.constraints) : c ∈ st2.constraints := by
  obtain ⟨d, e⟩ := h
  rw [e]
  exact List.mem_append_left _ hc

/-! ## Key-sum lemmas: the total coefficient of a wire survives `reduce` -/

theorem keySum_cons {p : ℕ} (t : Term p) (l : LinExp p) (vs : Vis) (id : ℕ) :
    keySum (t :: l) vs id =
      (if t.vis = vs ∧ t.vid = id then t.coeff else 0) + keySum l vs id := by
  by_cases h : t.vis = vs ∧ t.vid = id
  · simp [keySum, List.filter_cons, h]
  · simp [keySum, List.filter_cons, h]

theorem keySum_append {p : ℕ} (l₁ l₂ : LinExp p) (vs : Vis) (id : ℕ) :
    keySum (l₁ ++ l₂) vs id = keySum l₁ vs id + keySum l₂ vs id := by
  simp [keySum, List.filter_append]

theorem keySum_insertTerm {p : ℕ} (t : Term p) (l : LinExp p) (vs : Vis) (id : ℕ) :
    keySum (insertTerm t l) vs id =
      (if t.vis = vs ∧ t.vid = id then t.coeff else 0) + keySum l vs id := by
  induction l with
  | nil =>
    show keySum [t] vs id = _
    rw [keySum_cons]
  | cons u us ih =>
    by_cases hk : t.vis = u.vis ∧ t.vid = u.vid
    · unfold insertTerm
      rw [if_pos hk]
      rcases hk with ⟨h1, h2⟩
      by_cases hq : u.vis = vs ∧ u.vid = id
      · have ht : t.vis = vs ∧ t.vid = id := ⟨h1.trans hq.1, h2.trans hq.2⟩
        simp [keySum_cons, hq, ht]
        ring
      · have ht : ¬(t.vis = vs ∧ t.vid = id) := by
          intro hc
          exact hq ⟨h1 ▸ hc.1, h2 ▸ hc.2⟩
        simp [keySum_cons, hq, ht]
    · by_cases hlt : termKeyLt t u
      · unfold insertTerm
        rw [if_neg hk, if_pos hlt]
        simp [keySum_cons]
      · unfold insertTerm
        rw [if_neg hk, if_neg hlt]
        simp [keySum_cons, ih]
        ring

theorem keySum_filter_ne_zero {p : ℕ} (l : LinExp p) (vs : Vis) (id : ℕ) :
    keySum (l.filter (fun t => t.coeff ≠ 0)) vs id = keySum l vs id := by
  induction l with
  | nil => rfl
  | cons t ts ih =>
    simp only [decide_not] at ih ⊢
    by_cases h : t.coeff = 0
    · simp [List.filter_cons, h, keySum_cons, ih]
    · simp [List.filter_cons, h, keySum_cons, ih]

theorem keySum_reduce {p : ℕ} (l : LinExp p) (vs : Vis) (id : ℕ) :
    keySum (reduce l) vs id = keySum l vs id := by
  unfold reduce
  rw [keySum_filter_ne_zero]
  induction l with
  | nil => rfl
  | cons t ts ih => simp [List.foldr, keySum_insertTerm, ih, keySum_cons]

theorem keySum_eq_zero_of_not_mem {p : ℕ} (l : LinExp p) (vs : Vis) (id : ℕ)
    (h : ∀ t ∈ l, ¬(t.vis = vs ∧ t.vid = id)) : keySum l vs id = 0 := by
  induction l with
  | nil => rfl
  | cons t ts ih =>
    rw [keySum_cons, if_neg (h t (List.mem_cons_self t ts))]
    simp [ih (fun u hu => h u (List.mem_cons_of_mem t hu))]

theorem exists_mem_of_keySum_ne_zero {p : ℕ} {l : LinExp p} {vs : Vis} {id : ℕ}
    (h : keySum l vs id ≠ 0) : ∃ t ∈ l, t.vis = vs ∧ t.vid = id := by
  by_contra hc
  push_neg at hc
  exact h (keySum_eq_zero_of_not_mem l vs id
    (fun t ht hq => hc t ht hq.1 hq.2))

theorem isConst_false_of_mem {p : ℕ} {v : GVar p} {t : Term p}
    (ht : t ∈ v.linExp) (hv : t.vis ≠ Vis.virt) : v.isConst = false := by
  unfold GVar.isConst
  rw [List.all_eq_false]
  exact ⟨t, ht, by simpa using hv⟩

/-! ## Equations and soundness of the builder operations -/

theorem Add_r1cs {p : ℕ} (i1 i2 : GVar p) (rest : List (GVar p)) (st : BState p)
    (hb : st.backend = BackendID.r1cs) :
    Add i1 i2 rest st = (⟨reduce ((i1 :: i2 :: rest).map GVar.linExp).flatten⟩, st) := by
  unfold Add
  rw [hb]

theorem Add_plonk_single {p : ℕ} (i1 i2 : GVar p) (rest : List (GVar p)) (st : BState p)
    (hb : st.backend = BackendID.plonk)
    (hl : (reduce ((i1 :: i2 :: rest).map GVar.linExp).flatten).length = 1) :
    Add i1 i2 rest st = (⟨reduce ((i1 :: i2 :: rest).map GVar.linExp).flatten⟩, st) := by
  unfold Add
  conv_lhs => rw [hb]
  exact if_pos hl

theorem Add_plonk_multi {p : ℕ} (i1 i2 : GVar p) (rest : List (GVar p)) (st : BState p)
    (hb : st.backend = BackendID.plonk)
    (hl : (reduce ((i1 :: i2 :: rest).map GVar.linExp).flatten).length ≠ 1) :
    Add i1 i2 rest st =
      (⟨[⟨1, st.nbInternal, Vis.internal⟩]⟩,
       { st with
         nbInternal := st.nbInternal + 1
         constraints := st.constraints ++
           [⟨constLE p 1, reduce ((i1 :: i2 :: rest).map GVar.linExp).flatten,
             [⟨1, st.nbInternal, Vis.internal⟩]⟩] }) := by
  unfold Add
  conv_lhs => rw [hb]
  exact if_neg hl

theorem sum_map_neg {p : ℕ} {α : Type} (l : List α) (f : α → ZMod p) :
    (l.map (fun a => -f a)).sum = -(l.map f).sum := by
  induction l with
  | nil => simp
  | cons a as ih =>
    simp [ih]
    abel

theorem evalLE_sub_shape {p : ℕ} (σ : Vis → ℕ → ZMod p) (i1 : GVar p)
    (vs : List (GVar p)) :
    evalLE σ (reduce (i1.linExp ++ (vs.map (fun v => negateLinExp v.linExp)).flatten)) =
      evalVar σ i1 - (vs.map (evalVar σ)).sum := by
  rw [evalLE_reduce, evalLE_append, evalLE_flatten, List.map_map]
  have : (vs.map (evalLE σ ∘ fun v => negateLinExp v.linExp)).sum =
      -(vs.map (evalVar σ)).sum := by
    have h1 : (evalLE σ ∘ fun v : GVar p => negateLinExp v.linExp) =
        fun v : GVar p => -evalVar σ v := by
      funext v
      exact evalLE_negate σ v.linExp
    rw [h1, sum_map_neg]
  rw [this]
  simp only [evalVar]
  ring

theorem Sub_r1cs {p : ℕ} (i1 i2 : GVar p) (rest : List (GVar p)) (st : BState p)
    (hb : st.backend = BackendID.r1cs) :
    Sub i1 i2 rest st =
      (⟨reduce (i1.linExp ++ ((i2 :: rest).map (fun v => negateLinExp v.linExp)).flatten)⟩,
       st) := by
  unfold Sub
  rw [hb]

theorem Mul_nil {p : ℕ} (i1 i2 : GVar p) (st : BState p) :
    Mul i1 i2 [] st = mul2 i1 i2 st := rfl

theorem mul2_wires {p : ℕ} (v1 v2 : GVar p) (st : BState p)
    (h1 : v1.isConst = false) (h2 : v2.isConst = false) :
    mul2 v1 v2 st =
      (⟨[⟨1, st.nbInternal, Vis.internal⟩]⟩,
       { st with
         nbInternal := st.nbInternal + 1
         constraints := st.constraints ++
           [⟨v1.linExp, v2.linExp, [⟨1, st.nbInternal, Vis.internal⟩]⟩] }) := by
  unfold mul2
  simp only [h1, h2]
  rfl

theorem mul2_consts {p : ℕ} (v1 v2 : GVar p) (st : BState p)
    (h1 : v1.isConst = true) (h2 : v2.isConst = true) :
    mul2 v1 v2 st = (constVar p (v1.constVal * v2.constVal), st) := by
  unfold mul2
  simp [h1, h2]

theorem mul2_constLeft {p : ℕ} (v1 v2 : GVar p) (st : BState p)
    (h1 : v1.isConst = true) (h2 : v2.isConst = false) :
    mul2 v1 v2 st = (mulConstant v2 v1, st) := by
  unfold mul2
  simp [h1, h2]

theorem mul2_constRight {p : ℕ} (v1 v2 : GVar p) (st : BState p)
    (h1 : v1.isConst = false) (h2 : v2.isConst = true) :
    mul2 v1 v2 st = (mulConstant v1 v2, st) := by
  unfold mul2
  simp [h1, h2]

theorem evalLE_singleWire {p : ℕ} (σ : Vis → ℕ → ZMod p) (c : ZMod p) (n : ℕ) (vs : Vis) :
    evalLE σ ([⟨c, n, vs⟩] : LinExp p) = c * wireVal σ vs n := by
  simp [evalLE, termVal]

theorem mul2_sound {p : ℕ} (σ : Vis → ℕ → ZMod p) (v1 v2 : GVar p) (st : BState p) :
    Extends st (mul2 v1 v2 st).2 ∧
    (SatAll σ (mul2 v1 v2 st).2 →
      evalVar σ (mul2 v1 v2 st).1 = evalVar σ v1 * evalVar σ v2) := by
  cases h1 : v1.isConst with
  | true =>
    cases h2 : v2.isConst with
    | true =>
      rw [mul2_consts v1 v2 st h1 h2]
      refine ⟨extends_refl st, fun _ => ?_⟩
      rw [evalVar_constVar, evalVar_isConst σ v1 h1, evalVar_isConst σ v2 h2]
    | false =>
      rw [mul2_constLeft v1 v2 st h1 h2]
      refine ⟨extends_refl st, fun _ => ?_⟩
      rw [evalVar_mulConstant, evalVar_isConst σ v1 h1]
  | false =>
    cases h2 : v2.isConst with
    | true =>
      rw [mul2_constRight v1 v2 st h1 h2]
      refine ⟨extends_refl st, fun _ => ?_⟩
      rw [evalVar_mulConstant, evalVar_isConst σ v2 h2]
      ring
    | false =>
      rw [mul2_wires v1 v2 st h1 h2]
      refine ⟨⟨_, rfl⟩, fun hs => ?_⟩
      have hc := hs ⟨v1.linExp, v2.linExp, [⟨1, st.nbInternal, Vis.internal⟩]⟩
        (by simp)
      unfold satR1C at hc
      rw [evalLE_singleWire] at hc
      show evalLE σ [⟨1, st.nbInternal, Vis.internal⟩] = _
      rw [evalLE_singleWire]
      exact hc.symm

theorem Add_sound {p : ℕ} (σ : Vis → ℕ → ZMod p) (i1 i2 : GVar p)
    (rest : List (GVar p)) (st : BState p) :
    Extends st (Add i1 i2 rest st).2 ∧
    (SatAll σ (Add i1 i2 rest st).2 →
      evalVar σ (Add i1 i2 rest st).1 = ((i1 :: i2 :: rest).map (evalVar σ)).sum) := by
  have hres : evalLE σ (reduce ((i1 :: i2 :: rest).map GVar.linExp).flatten) =
      ((i1 :: i2 :: rest).map (evalVar σ)).sum := by
    rw [evalLE_reduce, evalLE_flatten, List.map_map]
    rfl
  cases hb : st.backend with
  | r1cs =>
    rw [Add_r1cs i1 i2 rest st hb]
    exact ⟨extends_refl st, fun _ => hres⟩
  | plonk =>
    by_cases hl : (reduce ((i1 :: i2 :: rest).map GVar.linExp).flatten).length = 1
    · rw [Add_plonk_single i1 i2 rest st hb hl]
      exact ⟨extends_refl st, fun _ => hres⟩
    · rw [Add_plonk_multi i1 i2 rest st hb hl]
      refine ⟨⟨_, rfl⟩, fun hs => ?_⟩
      have hc := hs ⟨constLE p 1, reduce ((i1 :: i2 :: rest).map GVar.linExp).flatten,
        [⟨1, st.nbInternal, Vis.internal⟩]⟩ (by simp)
      unfold satR1C at hc
      rw [evalLE_constLE, one_mul, hres] at hc
      show evalLE σ [⟨1, st.nbInternal, Vis.internal⟩] = _
      rw [← hc]

theorem Sub_sound {p : ℕ} (σ : Vis → ℕ → ZMod p) (i1 i2 : GVar p)
    (rest : List (GVar p)) (st : BState p) :
    Extends st (Sub i1 i2 rest st).2 ∧
    (SatAll σ (Sub i1 i2 rest st).2 →
      evalVar σ (Sub i1 i2 rest st).1 =
        evalVar σ i1 - ((i2 :: rest).map (evalVar σ)).sum) := by
  have hres := evalLE_sub_shape σ i1 (i2 :: rest)
  cases hb : st.backend with
  | r1cs =>
    rw [Sub_r1cs i1 i2 rest st hb]
    exact ⟨extends_refl st, fun _ => hres⟩
  | plonk =>
    unfold Sub
    rw [hb]
    by_cases hl :
      (reduce (i1.linExp ++ ((i2 :: rest).map (fun v => negateLinExp v.linExp)).flatten)).length = 1
    · simp only [if_pos hl]
      exact ⟨extends_refl st, fun _ => hres⟩
    · simp only [if_neg hl]
      refine ⟨⟨_, rfl⟩, fun hs => ?_⟩
      have hc := hs
        ⟨constLE p 1,
         reduce (i1.linExp ++ ((i2 :: rest).map (fun v => negateLinExp v.linExp)).flatten),
         [⟨1, st.nbInternal, Vis.internal⟩]⟩
        (by simp [addConstraintR, newR1C, newInternalVariable, oneVar])
      unfold satR1C at hc
      rw [evalLE_constLE, one_mul, hres] at hc
      show evalLE σ [⟨1, st.nbInternal, Vis.internal⟩] = _
      rw [← hc]

theorem Inverse_nonconst {p : ℕ} (i1 : GVar p) (st : BState p)
    (h : i1.isConst = false) :
    Inverse i1 st =
      Except.ok
        (⟨[⟨1, st.nbInternal, Vis.internal⟩]⟩,
         { st with
           nbInternal := st.nbInternal + 1
           constraints := st.constraints ++
             [⟨[⟨1, st.nbInternal, Vis.internal⟩], i1.linExp, constLE p 1⟩] }) := by
  unfold Inverse
  simp only [h]
  rfl

theorem AssertIsBoolean_const_ok {p : ℕ} (v : GVar p) (st : BState p)
    (h : v.isConst = true) (hv : v.constVal = 0 ∨ v.constVal = 1) :
    AssertIsBoolean v st = Except.ok st := by
  unfold AssertIsBoolean
  simp [h, hv]

theorem AssertIsBoolean_marked {p : ℕ} (v : GVar p) (st : BState p)
    (hd : Term p) (tl : LinExp p) (hle : v.linExp = hd :: tl)
    (hc : v.isConst = false) (hm : (hd.vis, hd.vid) ∈ st.booleans) :
    AssertIsBoolean v st = Except.ok st := by
  unfold AssertIsBoolean
  rw [hc]
  simp only [Bool.false_eq_true, if_false]
  rw [hle]
  simp [hm]

theorem AssertIsBoolean_new {p : ℕ} (v : GVar p) (st : BState p)
    (hd : Term p) (tl : LinExp p) (hle : v.linExp = hd :: tl)
    (hc : v.isConst = false) (hm : (hd.vis, hd.vid) ∉ st.booleans) :
    AssertIsBoolean v st =
      Except.ok
        { st with
          constraints := st.constraints ++ [boolC v]
          booleans := st.booleans ++ [(hd.vis, hd.vid)] } := by
  unfold AssertIsBoolean
  rw [hc]
  simp only [Bool.false_eq_true, if_false]
  rw [hle]
  simp only [if_neg hm]
  unfold boolC
  rw [hle]

/-- A non-constant variable has a head term. -/
theorem exists_head_of_not_const {p : ℕ} (v : GVar p) (hc : v.isConst = false) :
    ∃ hd tl, v.linExp = hd :: tl := by
  cases hle : v.linExp with
  | nil =>
    exfalso
    have : v.isConst = true := by
      unfold GVar.isConst
      rw [hle]
      rfl
    rw [this] at hc
    cases hc
  | cons hd tl => exact ⟨hd, tl, rfl⟩

/-- Soundness: `AssertIsBoolean` succeeds on any input that is not a non-boolean
constant; the state only grows; a previously unmarked non-constant wire gets
the boolean constraint. -/
theorem AssertIsBoolean_ok {p : ℕ} (v : GVar p) (st : BState p)
    (hs : v.isConst = true → v.constVal = 0 ∨ v.constVal = 1) :
    ∃ st2, AssertIsBoolean v st = Except.ok st2 ∧ Extends st st2 ∧
      (v.isConst = false →
        ∀ hd tl, v.linExp = hd :: tl → (hd.vis, hd.vid) ∉ st.booleans →
          boolC v ∈ st2.constraints) := by
  cases hc : v.isConst with
  | true =>
    refine ⟨st, AssertIsBoolean_const_ok v st hc (hs hc), extends_refl st, ?_⟩
    intro hfalse
    simp at hfalse
  | false =>
    obtain ⟨hd, tl, hle⟩ := exists_head_of_not_const v hc
    by_cases hm : (hd.vis, hd.vid) ∈ st.booleans
    · refine ⟨st, AssertIsBoolean_marked v st hd tl hle hc hm, extends_refl st, ?_⟩
      intro _ hd2 tl2 hle2 hm2
      exfalso
      rw [hle] at hle2
      cases hle2
      exact hm2 hm
    · refine ⟨_, AssertIsBoolean_new v st hd tl hle hc hm, ⟨_, rfl⟩, ?_⟩
      intro _ hd2 tl2 hle2 hm2
      simp

theorem Inverse_sound {p : ℕ} [Fact p.Prime] (σ : Vis → ℕ → ZMod p) (i1 : GVar p)
    (st : BState p) (res : GVar p) (st2 : BState p)
    (h : Inverse i1 st = Except.ok (res, st2)) :
    Extends st st2 ∧
    (SatAll σ st2 → evalVar σ res * evalVar σ i1 = 1) := by
  cases hc : i1.isConst with
  | true =>
    by_cases hz : i1.constVal = 0
    · exfalso
      unfold Inverse at h
      simp [hc, hz] at h
    · unfold Inverse at h
      simp only [hc, if_true, if_neg hz, cond_true] at h
      have h2 : res = constVar p i1.constVal⁻¹ ∧ st2 = st := by
        cases h
        exact ⟨rfl, rfl⟩
      obtain ⟨h3, h4⟩ := h2
      subst h3; subst h4
      refine ⟨extends_refl _, fun _ => ?_⟩
      rw [evalVar_constVar, evalVar_isConst σ i1 hc]
      exact inv_mul_cancel₀ hz
  | false =>
    rw [Inverse_nonconst i1 st hc] at h
    have h2 :
        res = (⟨[⟨1, st.nbInternal, Vis.internal⟩]⟩ : GVar p) ∧
        st2 = { st with
                nbInternal := st.nbInternal + 1
                constraints := st.constraints ++
                  [⟨[⟨1, st.nbInternal, Vis.internal⟩], i1.linExp, constLE p 1⟩] } := by
      cases h
      exact ⟨rfl, rfl⟩
    obtain ⟨h3, h4⟩ := h2
    subst h3; subst h4
    refine ⟨⟨_, rfl⟩, fun hs => ?_⟩
    have hcon := hs ⟨[⟨1, st.nbInternal, Vis.internal⟩], i1.linExp, constLE p 1⟩ (by simp)
    unfold satR1C at hcon
    rw [evalLE_constLE] at hcon
    exact hcon

theorem bool_of_mul_one_sub {p : ℕ} [Fact p.Prime] {x : ZMod p}
    (h : x * (1 - x) = 0) : x = 0 ∨ x = 1 := by
  rcases mul_eq_zero.mp h with h0 | h1
  · exact Or.inl h0
  · exact Or.inr (sub_eq_zero.mp h1).symm

/-! ## Claim theorems -/

/-- C1.  `IsZero(a)`: on a constant input it returns the constant 1 when the
value is 0 and the constant 0 otherwise, with no change to the builder state;
on a non-constant input it allocates the hint wire `m` (solved by the `IsZero`
hint), emits `a · m = 0`, asserts `m` boolean, and asserts `(m + a)` has an
inverse; whatever the input, under any assignment satisfying the resulting
constraints the returned value satisfies `m = 1 ↔ a = 0` and `m ∈ {0, 1}`;
and the hint value `m = 1 − a^(p−1)` satisfies every emitted constraint, is
boolean, and equals 1 exactly on `a = 0`. -/
theorem isZero_spec {p : ℕ} [Fact p.Prime] (a : GVar p) (st : BState p)
    (hfresh : ∀ t ∈ a.linExp, t.vis = Vis.internal → t.vid < st.nbInternal)
    (hwf : ∀ pr ∈ st.booleans, pr.1 = Vis.internal → pr.2 < st.nbInternal)
    (hb : st.backend = BackendID.r1cs) :
    (a.isConst = true → a.constVal = 0 →
      IsZero a st = Except.ok (constVar p 1, st)) ∧
    (a.isConst = true → a.constVal ≠ 0 →
      IsZero a st = Except.ok (constVar p 0, st)) ∧
    (a.isConst = false → IsZero a st =
      Except.ok
        (⟨[⟨1, st.nbInternal, Vis.internal⟩]⟩,
         { st with
           nbInternal := st.nbInternal + 2
           constraints := st.constraints ++
             [⟨a.linExp, [⟨1, st.nbInternal, Vis.internal⟩], constLE p 0⟩,
              boolC ⟨[⟨1, st.nbInternal, Vis.internal⟩]⟩,
              ⟨[⟨1, st.nbInternal + 1, Vis.internal⟩],
               reduce ((⟨1, st.nbInternal, Vis.internal⟩ : Term p) :: a.linExp),
               constLE p 1⟩]
           hints := st.hints ++ [⟨HintKind.isZero, [a.linExp], st.nbInternal⟩]
           booleans := st.booleans ++ [(Vis.internal, st.nbInternal)] })) ∧
    (∀ res stF, IsZero a st = Except.ok (res, stF) →
      ∀ σ : Vis → ℕ → ZMod p, SatAll σ stF →
        ((evalVar σ res = 1 ↔ evalVar σ a = 0) ∧
         (evalVar σ res = 0 ∨ evalVar σ res = 1))) ∧
    (∀ A : ZMod p,
      (isZeroHintVal A = 1 ↔ A = 0) ∧
      (isZeroHintVal A = 0 ∨ isZeroHintVal A = 1) ∧
      A * isZeroHintVal A = 0 ∧
      (isZeroHintVal A + A) * (isZeroHintVal A + A)⁻¹ = 1) := by
  have hppos : 1 < p := (Fact.out : p.Prime).one_lt
  have hm_nc : (⟨[(⟨1, st.nbInternal, Vis.internal⟩ : Term p)]⟩ : GVar p).isConst = false := rfl
  have hmNotMarked : (Vis.internal, st.nbInternal) ∉ st.booleans := by
    intro hmem
    exact absurd (hwf _ hmem rfl) (lt_irrefl _)
  have hfold0 : a.isConst = true → a.constVal = 0 →
      IsZero a st = Except.ok (constVar p 1, st) := by
    intro hc hz
    unfold IsZero
    simp [hc, hz]
  have hfold1 : a.isConst = true → a.constVal ≠ 0 →
      IsZero a st = Except.ok (constVar p 0, st) := by
    intro hc hz
    unfold IsZero
    simp [hc, hz]
  -- the non-constness of m + a, via the key-sum of the fresh wire
  have hkey : keySum (reduce ((⟨1, st.nbInternal, Vis.internal⟩ : Term p) :: a.linExp))
      Vis.internal st.nbInternal = 1 := by
    rw [keySum_reduce, keySum_cons, if_pos ⟨rfl, rfl⟩,
      keySum_eq_zero_of_not_mem]
    · simp
    · intro t ht hq
      exact absurd (hfresh t ht hq.1) (by rw [hq.2]; exact lt_irrefl _)
  have hmaNC : (⟨reduce ((⟨1, st.nbInternal, Vis.internal⟩ : Term p) :: a.linExp)⟩ :
      GVar p).isConst = false := by
    have h1 : keySum (reduce ((⟨1, st.nbInternal, Vis.internal⟩ : Term p) :: a.linExp))
        Vis.internal st.nbInternal ≠ 0 := by
      rw [hkey]
      exact one_ne_zero
    obtain ⟨t, ht, hq⟩ := exists_mem_of_keySum_ne_zero h1
    exact isConst_false_of_mem ht (by rw [hq.1]; intro hv; cases hv)
  have htrace : a.isConst = false → IsZero a st =
      Except.ok
        ((⟨[⟨1, st.nbInternal, Vis.internal⟩]⟩ : GVar p),
         { st with
           nbInternal := st.nbInternal + 2
           constraints := st.constraints ++
             [⟨a.linExp, [⟨1, st.nbInternal, Vis.internal⟩], constLE p 0⟩,
              boolC ⟨[⟨1, st.nbInternal, Vis.internal⟩]⟩,
              ⟨[⟨1, st.nbInternal + 1, Vis.internal⟩],
               reduce ((⟨1, st.nbInternal, Vis.internal⟩ : Term p) :: a.linExp),
               constLE p 1⟩]
           hints := st.hints ++ [⟨HintKind.isZero, [a.linExp], st.nbInternal⟩]
           booleans := st.booleans ++ [(Vis.internal, st.nbInternal)] }) := by
    intro hnc
    unfold IsZero
    rw [hnc]
    simp only [Bool.false_eq_true, if_false, newHint, addConstraintR, newR1C]
    dsimp only [constVar]
    rw [AssertIsBoolean_new _ _ ⟨1, st.nbInternal, Vis.internal⟩ [] rfl rfl
      (by simpa using hmNotMarked)]
    dsimp only
    rw [Add_r1cs _ _ _ _ (by simpa using hb)]
    simp only [List.map_cons, List.map_nil, List.flatten_cons, List.flatten_nil,
      List.append_nil, List.singleton_append]
    rw [Inverse_nonconst _ _ hmaNC]
    simp [boolC, List.append_assoc]
  refine ⟨hfold0, hfold1, htrace, ?_, ?_⟩
  · intro res stF heq σ hsat
    cases hc : a.isConst with
    | true =>
      by_cases hz : a.constVal = 0
      · rw [hfold0 hc hz] at heq
        have hres : res = constVar p 1 := by
          cases heq
          rfl
        subst hres
        refine ⟨?_, Or.inr (evalVar_constVar σ 1)⟩
        rw [evalVar_constVar, evalVar_isConst σ a hc, hz]
        exact ⟨fun _ => rfl, fun _ => rfl⟩
      · rw [hfold1 hc hz] at heq
        have hres : res = constVar p 0 := by
          cases heq
          rfl
        subst hres
        refine ⟨?_, Or.inl (evalVar_constVar σ 0)⟩
        rw [evalVar_constVar, evalVar_isConst σ a hc]
        exact ⟨fun h => absurd h zero_ne_one, fun h => absurd h hz⟩
    | false =>
      rw [htrace hc] at heq
      have hres : res = (⟨[⟨1, st.nbInternal, Vis.internal⟩]⟩ : GVar p) := by
        cases heq
        rfl
      have hstF : stF.constraints = st.constraints ++
          [⟨a.linExp, [⟨1, st.nbInternal, Vis.internal⟩], constLE p 0⟩,
           boolC ⟨[⟨1, st.nbInternal, Vis.internal⟩]⟩,
           ⟨[⟨1, st.nbInternal + 1, Vis.internal⟩],
            reduce ((⟨1, st.nbInternal, Vis.internal⟩ : Term p) :: a.linExp),
            constLE p 1⟩] := by
        cases heq
        rfl
      subst hres
      have h1 := hsat ⟨a.linExp, [⟨1, st.nbInternal, Vis.internal⟩], constLE p 0⟩
        (by rw [hstF]; simp)
      have h2 := hsat (boolC (⟨[⟨1, st.nbInternal, Vis.internal⟩]⟩ : GVar p))
        (by rw [hstF]; simp)
      have h3 := hsat ⟨[⟨1, st.nbInternal + 1, Vis.internal⟩],
        reduce ((⟨1, st.nbInternal, Vis.internal⟩ : Term p) :: a.linExp), constLE p 1⟩
        (by rw [hstF]; simp)
      unfold satR1C at h1 h2 h3
      rw [evalLE_singleWire, evalLE_constLE] at h1
      unfold boolC at h2
      rw [evalLE_append, evalLE_constLE, evalLE_negate, evalLE_singleWire,
        evalLE_constLE] at h2
      rw [evalLE_singleWire, evalLE_reduce, evalLE_cons, evalLE_constLE] at h3
      simp only [wireVal, one_mul, termVal] at h1 h2 h3
      -- h1 : A · M = 0, h2 : M · (1 − M) = 0, h3 : I · (M + A) = 1
      have h2s : σ Vis.internal st.nbInternal * (1 - σ Vis.internal st.nbInternal) = 0 := by
        rw [sub_eq_add_neg]
        exact h2
      have hMbool : σ Vis.internal st.nbInternal = 0 ∨ σ Vis.internal st.nbInternal = 1 :=
        bool_of_mul_one_sub h2s
      have hMA : σ Vis.internal st.nbInternal + evalLE σ a.linExp ≠ 0 := by
        intro hzero
        rw [hzero, mul_zero] at h3
        exact zero_ne_one h3
      have hresEval : evalVar σ (⟨[⟨1, st.nbInternal, Vis.internal⟩]⟩ : GVar p) =
          σ Vis.internal st.nbInternal := by
        unfold evalVar
        rw [evalLE_singleWire]
        simp [wireVal]
      rw [hresEval]
      constructor
      · constructor
        · intro hM1
          rw [hM1, mul_one] at h1
          exact h1
        · intro hA0
          unfold evalVar at hA0
          rcases hMbool with hM0 | hM1
          · exfalso
            rw [hM0, hA0, add_zero] at hMA
            exact hMA rfl
          · exact hM1
      · exact hMbool
  · intro A
    unfold isZeroHintVal
    by_cases hA : A = 0
    · subst hA
      have hpow : (0 : ZMod p) ^ (p - 1) = 0 := by
        apply zero_pow
        omega
      rw [hpow, sub_zero]
      refine ⟨⟨fun _ => rfl, fun _ => rfl⟩, Or.inr rfl, by ring, ?_⟩
      simp
    · have hpow : A ^ (p - 1) = 1 := ZMod.pow_card_sub_one_eq_one hA
      rw [hpow, sub_self]
      refine ⟨⟨fun h => absurd h zero_ne_one, fun h => absurd h hA⟩,
        Or.inl rfl, by ring, ?_⟩
      rw [zero_add]
      exact mul_inv_cancel₀ hA

/-- Witness for C1 at a concrete prime: the constant folds on the constants 0
and 3 in `F_5`, and the hint-value facts obtained through a single secret
wire in an empty R1CS-flavor builder state. -/
theorem isZero_spec_witness :
    (IsZero (constVar 5 0) ⟨0, [], [], [], BackendID.r1cs⟩ =
      Except.ok (constVar 5 1, ⟨0, [], [], [], BackendID.r1cs⟩)) ∧
    (IsZero (constVar 5 3) ⟨0, [], [], [], BackendID.r1cs⟩ =
      Except.ok (constVar 5 0, ⟨0, [], [], [], BackendID.r1cs⟩)) ∧
    ((⟨[⟨1, 0, Vis.sec⟩]⟩ : GVar 5).isConst = false) ∧
    (∀ A : ZMod 5,
      (isZeroHintVal A = 1 ↔ A = 0) ∧
      (isZeroHintVal A = 0 ∨ isZeroHintVal A = 1) ∧
      A * isZeroHintVal A = 0 ∧
      (isZeroHintVal A + A) * (isZeroHintVal A + A)⁻¹ = 1) := by
  have h1 : (⟨[⟨1, 0, Vis.sec⟩]⟩ : GVar 5).isConst = false := by decide
  have h2 : ∀ t ∈ (⟨[⟨1, 0, Vis.sec⟩]⟩ : GVar 5).linExp, t.vis = Vis.internal →
      t.vid < (⟨0, [], [], [], BackendID.r1cs⟩ : BState 5).nbInternal := by decide
  have h3 : ∀ pr ∈ (⟨0, [], [], [], BackendID.r1cs⟩ : BState 5).booleans,
      pr.1 = Vis.internal →
      pr.2 < (⟨0, [], [], [], BackendID.r1cs⟩ : BState 5).nbInternal := by decide
  have h2c0 : ∀ t ∈ (constVar 5 0).linExp, t.vis = Vis.internal →
      t.vid < (⟨0, [], [], [], BackendID.r1cs⟩ : BState 5).nbInternal := by decide
  have h2c3 : ∀ t ∈ (constVar 5 3).linExp, t.vis = Vis.internal →
      t.vid < (⟨0, [], [], [], BackendID.r1cs⟩ : BState 5).nbInternal := by decide
  have hc0 : (constVar 5 0).isConst = true := by decide
  have hz0 : (constVar 5 0).constVal = 0 := by decide
  have hc3 : (constVar 5 3).isConst = true := by decide
  have hz3 : (constVar 5 3).constVal ≠ 0 := by decide
  haveI : Fact (Nat.Prime 5) := ⟨by norm_num⟩
  refine ⟨?_, ?_, h1, ?_⟩
  · exact (isZero_spec (constVar 5 0)
      (⟨0, [], [], [], BackendID.r1cs⟩ : BState 5) h2c0 h3 rfl).1 hc0 hz0
  · exact (isZero_spec (constVar 5 3)
      (⟨0, [], [], [], BackendID.r1cs⟩ : BState 5) h2c3 h3 rfl).2.1 hc3 hz3
  · exact (isZero_spec (⟨[⟨1, 0, Vis.sec⟩]⟩ : GVar 5)
      (⟨0, [], [], [], BackendID.r1cs⟩ : BState 5) h2 h3 rfl).2.2.2.2

/-- Claim C7: `Add` returns the concatenation-then-reduction of the operand
linear expressions; in the R1CS flavor directly, and in the PLONK flavor a
reduced expression of exactly one term is returned with no new wire or
constraint, while more than one term allocates one fresh internal wire bound
by exactly one new constraint; under any satisfying assignment the result
evaluates to the sum of the operands. -/
theorem add_spec {p : ℕ} (i1 i2 : GVar p) (rest : List (GVar p)) (st : BState p) :
    (st.backend = BackendID.r1cs →
      Add i1 i2 rest st = (⟨reduce ((i1 :: i2 :: rest).map GVar.linExp).flatten⟩, st)) ∧
    (st.backend = BackendID.plonk →
      (reduce ((i1 :: i2 :: rest).map GVar.linExp).flatten).length = 1 →
      Add i1 i2 rest st = (⟨reduce ((i1 :: i2 :: rest).map GVar.linExp).flatten⟩, st)) ∧
    (st.backend = BackendID.plonk →
      1 < (reduce ((i1 :: i2 :: rest).map GVar.linExp).flatten).length →
      Add i1 i2 rest st =
        (⟨[⟨1, st.nbInternal, Vis.internal⟩]⟩,
         { st with
           nbInternal := st.nbInternal + 1
           constraints := st.constraints ++
             [⟨constLE p 1, reduce ((i1 :: i2 :: rest).map GVar.linExp).flatten,
               [⟨1, st.nbInternal, Vis.internal⟩]⟩] })) ∧
    (∀ σ : Vis → ℕ → ZMod p, SatAll σ (Add i1 i2 rest st).2 →
      evalVar σ (Add i1 i2 rest st).1 = ((i1 :: i2 :: rest).map (evalVar σ)).sum) :=
  ⟨fun hb => Add_r1cs i1 i2 rest st hb,
   fun hb hl => Add_plonk_single i1 i2 rest st hb hl,
   fun hb hl => Add_plonk_multi i1 i2 rest st hb (by omega),
   fun σ => (Add_sound σ i1 i2 rest st).2⟩

/-- Witness for C7: two distinct secret wires under the PLONK flavor — the
reduced expression has two terms, so one fresh wire and one constraint are
produced. -/
theorem add_spec_witness :
    1 < (reduce (((⟨[⟨1, 0, Vis.sec⟩]⟩ : GVar 5) :: (⟨[⟨1, 1, Vis.sec⟩]⟩ : GVar 5)
        :: []).map GVar.linExp).flatten).length ∧
    Add (⟨[⟨1, 0, Vis.sec⟩]⟩ : GVar 5) (⟨[⟨1, 1, Vis.sec⟩]⟩ : GVar 5) []
        ⟨0, [], [], [], BackendID.plonk⟩ =
      (⟨[⟨1, 0, Vis.internal⟩]⟩,
       ⟨1,
        [⟨constLE 5 1, [⟨1, 0, Vis.sec⟩, ⟨1, 1, Vis.sec⟩], [⟨1, 0, Vis.internal⟩]⟩],
        [], [], BackendID.plonk⟩) := by
  have h := add_spec (⟨[⟨1, 0, Vis.sec⟩]⟩ : GVar 5) (⟨[⟨1, 1, Vis.sec⟩]⟩ : GVar 5) []
    (⟨0, [], [], [], BackendID.plonk⟩ : BState 5)
  exact ⟨by decide, h.2.2.1 rfl (by decide)⟩

/-- Claim C2 (amended): with a non-constant divisor, `DivUnchecked(a, b)`
always succeeds at build time and emits only the single constraint
`b · q = a` on the fresh wire `q`; satisfying that constraint means exactly
`b · q = a`. -/
theorem divUnchecked_spec {p : ℕ} (i1 i2 : GVar p) (st : BState p)
    (h : i2.isConst = false) :
    DivUnchecked i1 i2 st =
      Except.ok
        (⟨[⟨1, st.nbInternal, Vis.internal⟩]⟩,
         { st with
           nbInternal := st.nbInternal + 1
           constraints := st.constraints ++
             [⟨i2.linExp, [⟨1, st.nbInternal, Vis.internal⟩], i1.linExp⟩] }) ∧
    (∀ σ : Vis → ℕ → ZMod p,
      satR1C σ ⟨i2.linExp, [⟨1, st.nbInternal, Vis.internal⟩], i1.linExp⟩ →
      evalVar σ i2 * σ Vis.internal st.nbInternal = evalVar σ i1) := by
  constructor
  · unfold DivUnchecked
    rw [h]
    rfl
  · intro σ hc
    unfold satR1C at hc
    rw [evalLE_singleWire] at hc
    simpa [wireVal, evalVar] using hc

/-- Counterexample to C2 as stated: a constant divisor equal to 0 makes
`DivUnchecked` fail at build time (the source panics with
"div by constant(0)"), so `DivUnchecked` does not accept every zero
divisor. -/
theorem divUnchecked_const_zero_counterexample :
    DivUnchecked (oneVar 5) (constVar 5 0) ⟨0, [], [], [], BackendID.r1cs⟩ =
      Except.error "div by constant(0)" := by
  rfl

/-- Witness for C2 at a concrete input: a secret-wire divisor. -/
theorem divUnchecked_spec_witness :
    (⟨[⟨1, 0, Vis.sec⟩]⟩ : GVar 5).isConst = false ∧
    (DivUnchecked (oneVar 5) (⟨[⟨1, 0, Vis.sec⟩]⟩ : GVar 5)
        ⟨0, [], [], [], BackendID.r1cs⟩ =
      Except.ok
        (⟨[⟨1, 0, Vis.internal⟩]⟩,
         ⟨1, [⟨[⟨1, 0, Vis.sec⟩], [⟨1, 0, Vis.internal⟩], constLE 5 1⟩],
          [], [], BackendID.r1cs⟩) ∧
     (∀ σ : Vis → ℕ → ZMod 5,
       satR1C σ ⟨[⟨1, 0, Vis.sec⟩], [⟨1, 0, Vis.internal⟩], constLE 5 1⟩ →
       evalVar σ (⟨[⟨1, 0, Vis.sec⟩]⟩ : GVar 5) * σ Vis.internal 0 =
         evalVar σ (oneVar 5))) := by
  have h := divUnchecked_spec (oneVar 5) (⟨[⟨1, 0, Vis.sec⟩]⟩ : GVar 5)
    (⟨0, [], [], [], BackendID.r1cs⟩ : BState 5) (by decide)
  exact ⟨by decide, h⟩

/-- Claim C9: `Inverse` of a constant 0 and `Div` by a constant 0 fail at
build time; on non-zero constants both fold to the constant modular
inverse / quotient with no new constraint, and the folded value really is the
modular inverse / quotient. -/
theorem inverse_div_const_spec {p : ℕ} [Fact p.Prime] (a b : GVar p) (st : BState p) :
    (a.isConst = true → a.constVal = 0 →
      Inverse a st = Except.error "inverse by constant(0)") ∧
    (b.isConst = true → b.constVal = 0 →
      Div a b st = Except.error "div by constant(0)") ∧
    (a.isConst = true → a.constVal ≠ 0 →
      Inverse a st = Except.ok (constVar p a.constVal⁻¹, st) ∧
      a.constVal * a.constVal⁻¹ = 1) ∧
    (a.isConst = true → b.isConst = true → b.constVal ≠ 0 →
      Div a b st = Except.ok (constVar p (b.constVal⁻¹ * a.constVal), st) ∧
      b.constVal * (b.constVal⁻¹ * a.constVal) = a.constVal) := by
  refine ⟨?_, ?_, ?_, ?_⟩
  · intro h1 h2
    unfold Inverse
    simp [h1, h2]
  · intro h1 h2
    unfold Div
    simp [h1, h2]
  · intro h1 h2
    constructor
    · unfold Inverse
      simp [h1, h2]
    · exact mul_inv_cancel₀ h2
  · intro h1 h2 h3
    constructor
    · unfold Div
      simp [h1, h2, h3]
    · rw [← mul_assoc, mul_inv_cancel₀ h3, one_mul]

/-- Witness for C9 at concrete constants in `F_5`: `Inverse(0)` and
`Div(_, 0)` fail; `Inverse(3) = 2` and `Div(3, 2) = 4` fold with no
constraint. -/
theorem inverse_div_const_spec_witness :
    ((constVar 5 3).constVal⁻¹ = (2 : ZMod 5)) ∧
    (Inverse (constVar 5 0) ⟨0, [], [], [], BackendID.r1cs⟩ =
      Except.error "inverse by constant(0)") ∧
    (Div (constVar 5 3) (constVar 5 0) ⟨0, [], [], [], BackendID.r1cs⟩ =
      Except.error "div by constant(0)") ∧
    (Inverse (constVar 5 3) ⟨0, [], [], [], BackendID.r1cs⟩ =
      Except.ok (constVar 5 (constVar 5 3).constVal⁻¹, ⟨0, [], [], [], BackendID.r1cs⟩) ∧
      (constVar 5 3).constVal * (constVar 5 3).constVal⁻¹ = 1) ∧
    (Div (constVar 5 3) (constVar 5 2) ⟨0, [], [], [], BackendID.r1cs⟩ =
      Except.ok (constVar 5 ((constVar 5 2).constVal⁻¹ * (constVar 5 3).constVal),
        ⟨0, [], [], [], BackendID.r1cs⟩) ∧
      (constVar 5 2).constVal * ((constVar 5 2).constVal⁻¹ * (constVar 5 3).constVal) =
        (constVar 5 3).constVal) := by
  have e0 : (constVar 5 0).isConst = true := by decide
  have e3 : (constVar 5 3).isConst = true := by decide
  have e2 : (constVar 5 2).isConst = true := by decide
  have v0 : (constVar 5 0).constVal = 0 := by decide
  have v3 : (constVar 5 3).constVal ≠ 0 := by decide
  have v2 : (constVar 5 2).constVal ≠ 0 := by decide
  have hm23 : (constVar 5 3).constVal * (2 : ZMod 5) = 1 := by decide
  haveI : Fact (Nat.Prime 5) := ⟨by norm_num⟩
  have hinv : (constVar 5 3).constVal⁻¹ = (2 : ZMod 5) :=
    inv_eq_of_mul_eq_one_right hm23
  refine ⟨hinv, ?_, ?_, ?_, ?_⟩
  · exact (inverse_div_const_spec (constVar 5 0) (constVar 5 0)
      (⟨0, [], [], [], BackendID.r1cs⟩ : BState 5)).1 e0 v0
  · exact (inverse_div_const_spec (constVar 5 3) (constVar 5 0)
      (⟨0, [], [], [], BackendID.r1cs⟩ : BState 5)).2.1 e0 v0
  · exact (inverse_div_const_spec (constVar 5 3) (constVar 5 2)
      (⟨0, [], [], [], BackendID.r1cs⟩ : BState 5)).2.2.1 e3 v3
  · exact (inverse_div_const_spec (constVar 5 3) (constVar 5 2)
      (⟨0, [], [], [], BackendID.r1cs⟩ : BState 5)).2.2.2 e3 e2 v2

theorem toBinaryVal_getD {p : ℕ} (a : ZMod p) (n i : ℕ) (hi : i < n) :
    (toBinaryVal a n).getD i 0 = ithBitVal a i := by
  unfold toBinaryVal
  rw [List.getD_eq_getElem?_getD]
  simp [List.getElem?_range, hi]

/-- Claim C10: `ToBinary` on a constant input returns `n` constant variables
carrying the little-endian bits of the constant's value, and leaves the
builder state exactly as it was: no constraint, hint, or boolean assertion is
added. -/
theorem toBinary_const_spec {p : ℕ} (a : GVar p) (n : ℕ) (st : BState p)
    (h : a.isConst = true) :
    ToBinary a n st = Except.ok ((toBinaryVal a.constVal n).map (constVar p), st) ∧
    ((toBinaryVal a.constVal n).map (constVar p)).length = n ∧
    (∀ i, i < n →
      ((toBinaryVal a.constVal n).map (constVar p)).getD i (constVar p 0) =
        constVar p (if a.constVal.val.testBit i then 1 else 0)) := by
  refine ⟨?_, ?_, ?_⟩
  · unfold ToBinary toBinaryVal ithBitVal
    simp [h, List.map_map]
  · simp [toBinaryVal]
  · intro i hi
    unfold toBinaryVal
    rw [List.map_map, List.getD_eq_getElem?_getD]
    simp [List.getElem?_range, hi]
    rfl

/-- Witness for C10: the constant 3 in `F_5`, three bits: `[1, 1, 0]`, with
the builder state untouched. -/
theorem toBinary_const_spec_witness :
    (constVar 5 3).isConst = true ∧
    ToBinary (constVar 5 3) 3 ⟨0, [], [], [], BackendID.r1cs⟩ =
      Except.ok ([constVar 5 1, constVar 5 1, constVar 5 0],
        ⟨0, [], [], [], BackendID.r1cs⟩) :=
  ⟨by decide,
   (toBinary_const_spec (constVar 5 3) 3 ⟨0, [], [], [], BackendID.r1cs⟩ (by decide)).1⟩

/-- Claim C6: `Select(s, a, b)` asserts `s` boolean (emitting the boolean
constraint when the selector is a non-constant unmarked wire) and returns a
value that, under any satisfying assignment, equals `s·(a − b) + b` — hence
`a` when `s = 1` and `b` when `s = 0` — in every branch, including the
constant-folding ones. -/
theorem select_spec {p : ℕ} (i0 i1 i2 : GVar p) (st : BState p)
    (hs : i0.isConst = true → i0.constVal = 0 ∨ i0.constVal = 1) :
    ∃ res st2, Select i0 i1 i2 st = Except.ok (res, st2) ∧ Extends st st2 ∧
      (i0.isConst = false →
        ∀ hd tl, i0.linExp = hd :: tl → (hd.vis, hd.vid) ∉ st.booleans →
          boolC i0 ∈ st2.constraints) ∧
      (∀ σ : Vis → ℕ → ZMod p, SatAll σ st2 →
        (evalVar σ res = evalVar σ i0 * (evalVar σ i1 - evalVar σ i2) + evalVar σ i2) ∧
        (evalVar σ i0 = 1 → evalVar σ res = evalVar σ i1) ∧
        (evalVar σ i0 = 0 → evalVar σ res = evalVar σ i2)) := by
  obtain ⟨st1, haib, hext1, hboolP⟩ := AssertIsBoolean_ok i0 st hs
  have hzero : (Vis → ℕ → ZMod p) := fun _ _ => 0
  cases hc1 : i1.isConst with
  | true =>
    cases hc2 : i2.isConst with
    | true =>
      -- both branches constant: Mul(s, n1 − n2) then Add(·, i2)
      have hsel : Select i0 i1 i2 st =
          Except.ok (Add (mul2 i0 (constVar p (i1.constVal - i2.constVal)) st1).1 i2 []
            (mul2 i0 (constVar p (i1.constVal - i2.constVal)) st1).2) := by
        unfold Select
        rw [haib]
        simp [hc1, hc2, Mul_nil]
      have hext2 := (mul2_sound hzero i0 (constVar p (i1.constVal - i2.constVal)) st1).1
      have hext3 := (Add_sound hzero (mul2 i0 (constVar p (i1.constVal - i2.constVal)) st1).1
        i2 [] (mul2 i0 (constVar p (i1.constVal - i2.constVal)) st1).2).1
      refine ⟨(Add (mul2 i0 (constVar p (i1.constVal - i2.constVal)) st1).1 i2 []
          (mul2 i0 (constVar p (i1.constVal - i2.constVal)) st1).2).1,
        (Add (mul2 i0 (constVar p (i1.constVal - i2.constVal)) st1).1 i2 []
          (mul2 i0 (constVar p (i1.constVal - i2.constVal)) st1).2).2,
        hsel, extends_trans hext1 (extends_trans hext2 hext3), ?_, ?_⟩
      · intro hc0 hd tl hle hm
        exact mem_of_extends (extends_trans hext2 hext3) (hboolP hc0 hd tl hle hm)
      · intro σ hsat
        have hsat2 : SatAll σ (mul2 i0 (constVar p (i1.constVal - i2.constVal)) st1).2 :=
          satAll_mono (Add_sound σ _ i2 [] _).1 hsat
        have hA := (Add_sound σ (mul2 i0 (constVar p (i1.constVal - i2.constVal)) st1).1
          i2 [] _).2 hsat
        have hM := (mul2_sound σ i0 (constVar p (i1.constVal - i2.constVal)) st1).2 hsat2
        rw [evalVar_constVar] at hM
        simp only [List.map_cons, List.map_nil, List.sum_cons, List.sum_nil] at hA
        have hid : evalVar σ (Add (mul2 i0 (constVar p (i1.constVal - i2.constVal)) st1).1
            i2 [] (mul2 i0 (constVar p (i1.constVal - i2.constVal)) st1).2).1 =
            evalVar σ i0 * (evalVar σ i1 - evalVar σ i2) + evalVar σ i2 := by
          rw [hA, hM, evalVar_isConst σ i1 hc1, evalVar_isConst σ i2 hc2]
          ring
        refine ⟨hid, ?_, ?_⟩
        · intro h1
          rw [hid, h1]
          ring
        · intro h0
          rw [hid, h0]
          ring
    | false =>
      by_cases hz : i1.constVal = 0
      · -- special case: a constant 0 first branch, `(1 − s) · i2`
        have hsel : Select i0 i1 i2 st =
            Except.ok (mul2 (Sub (constVar p 1) i0 [] st1).1 i2
              (Sub (constVar p 1) i0 [] st1).2) := by
          unfold Select
          rw [haib]
          simp [hc1, hc2, hz, Mul_nil]
        have hext2 := (Sub_sound hzero (constVar p 1) i0 [] st1).1
        have hext3 := (mul2_sound hzero (Sub (constVar p 1) i0 [] st1).1 i2
          (Sub (constVar p 1) i0 [] st1).2).1
        refine ⟨(mul2 (Sub (constVar p 1) i0 [] st1).1 i2
            (Sub (constVar p 1) i0 [] st1).2).1,
          (mul2 (Sub (constVar p 1) i0 [] st1).1 i2
            (Sub (constVar p 1) i0 [] st1).2).2,
          hsel, extends_trans hext1 (extends_trans hext2 hext3), ?_, ?_⟩
        · intro hc0 hd tl hle hm
          exact mem_of_extends (extends_trans hext2 hext3) (hboolP hc0 hd tl hle hm)
        · intro σ hsat
          have hsat2 : SatAll σ (Sub (constVar p 1) i0 [] st1).2 :=
            satAll_mono (mul2_sound σ _ i2 _).1 hsat
          have hS := (Sub_sound σ (constVar p 1) i0 [] st1).2 hsat2
          have hM := (mul2_sound σ (Sub (constVar p 1) i0 [] st1).1 i2 _).2 hsat
          rw [evalVar_constVar] at hS
          simp only [List.map_cons, List.map_nil, List.sum_cons, List.sum_nil] at hS
          have hid : evalVar σ (mul2 (Sub (constVar p 1) i0 [] st1).1 i2
              (Sub (constVar p 1) i0 [] st1).2).1 =
              evalVar σ i0 * (evalVar σ i1 - evalVar σ i2) + evalVar σ i2 := by
            rw [hM, hS, evalVar_isConst σ i1 hc1, hz]
            ring
          refine ⟨hid, ?_, ?_⟩
          · intro h1
            rw [hid, h1, evalVar_isConst σ i1 hc1, hz]
            ring
          · intro h0
            rw [hid, h0]
            ring
      · -- general case for a non-zero constant first branch
        have hsel : Select i0 i1 i2 st =
            Except.ok (Add (mul2 i0 (Sub i1 i2 [] st1).1 (Sub i1 i2 [] st1).2).1
              i2 [] (mul2 i0 (Sub i1 i2 [] st1).1 (Sub i1 i2 [] st1).2).2) := by
          unfold Select
          rw [haib]
          simp [hc1, hc2, hz, Mul_nil]
        have hext2 := (Sub_sound hzero i1 i2 [] st1).1
        have hext3 := (mul2_sound hzero i0 (Sub i1 i2 [] st1).1 (Sub i1 i2 [] st1).2).1
        have hext4 := (Add_sound hzero (mul2 i0 (Sub i1 i2 [] st1).1 (Sub i1 i2 [] st1).2).1
          i2 [] (mul2 i0 (Sub i1 i2 [] st1).1 (Sub i1 i2 [] st1).2).2).1
        refine ⟨(Add (mul2 i0 (Sub i1 i2 [] st1).1 (Sub i1 i2 [] st1).2).1 i2 []
            (mul2 i0 (Sub i1 i2 [] st1).1 (Sub i1 i2 [] st1).2).2).1,
          (Add (mul2 i0 (Sub i1 i2 [] st1).1 (Sub i1 i2 [] st1).2).1 i2 []
            (mul2 i0 (Sub i1 i2 [] st1).1 (Sub i1 i2 [] st1).2).2).2,
          hsel,
          extends_trans hext1 (extends_trans hext2 (extends_trans hext3 hext4)), ?_, ?_⟩
        · intro hc0 hd tl hle hm
          exact mem_of_extends (extends_trans hext2 (extends_trans hext3 hext4))
            (hboolP hc0 hd tl hle hm)
        · intro σ hsat
          have hsat3 : SatAll σ (mul2 i0 (Sub i1 i2 [] st1).1 (Sub i1 i2 [] st1).2).2 :=
            satAll_mono (Add_sound σ _ i2 [] _).1 hsat
          have hsat2 : SatAll σ (Sub i1 i2 [] st1).2 :=
            satAll_mono (mul2_sound σ i0 _ _).1 hsat3
          have hS := (Sub_sound σ i1 i2 [] st1).2 hsat2
          have hM := (mul2_sound σ i0 (Sub i1 i2 [] st1).1 (Sub i1 i2 [] st1).2).2 hsat3
          have hA := (Add_sound σ (mul2 i0 (Sub i1 i2 [] st1).1 (Sub i1 i2 [] st1).2).1
            i2 [] _).2 hsat
          simp only [List.map_cons, List.map_nil, List.sum_cons, List.sum_nil] at hS hA
          have hid : evalVar σ (Add (mul2 i0 (Sub i1 i2 [] st1).1 (Sub i1 i2 [] st1).2).1
              i2 [] (mul2 i0 (Sub i1 i2 [] st1).1 (Sub i1 i2 [] st1).2).2).1 =
              evalVar σ i0 * (evalVar σ i1 - evalVar σ i2) + evalVar σ i2 := by
            rw [hA, hM, hS]
            ring
          refine ⟨hid, ?_, ?_⟩
          · intro h1
            rw [hid, h1]
            ring
          · intro h0
            rw [hid, h0]
            ring
  | false =>
    -- the general branch: Sub, Mul, Add
    have hsel : Select i0 i1 i2 st =
        Except.ok (Add (mul2 i0 (Sub i1 i2 [] st1).1 (Sub i1 i2 [] st1).2).1
          i2 [] (mul2 i0 (Sub i1 i2 [] st1).1 (Sub i1 i2 [] st1).2).2) := by
      unfold Select
      rw [haib]
      simp [hc1, Mul_nil]
    have hext2 := (Sub_sound hzero i1 i2 [] st1).1
    have hext3 := (mul2_sound hzero i0 (Sub i1 i2 [] st1).1 (Sub i1 i2 [] st1).2).1
    have hext4 := (Add_sound hzero (mul2 i0 (Sub i1 i2 [] st1).1 (Sub i1 i2 [] st1).2).1
      i2 [] (mul2 i0 (Sub i1 i2 [] st1).1 (Sub i1 i2 [] st1).2).2).1
    refine ⟨(Add (mul2 i0 (Sub i1 i2 [] st1).1 (Sub i1 i2 [] st1).2).1 i2 []
        (mul2 i0 (Sub i1 i2 [] st1).1 (Sub i1 i2 [] st1).2).2).1,
      (Add (mul2 i0 (Sub i1 i2 [] st1).1 (Sub i1 i2 [] st1).2).1 i2 []
        (mul2 i0 (Sub i1 i2 [] st1).1 (Sub i1 i2 [] st1).2).2).2,
      hsel,
      extends_trans hext1 (extends_trans hext2 (extends_trans hext3 hext4)), ?_, ?_⟩
    · intro hc0 hd tl hle hm
      exact mem_of_extends (extends_trans hext2 (extends_trans hext3 hext4))
        (hboolP hc0 hd tl hle hm)
    · intro σ hsat
      have hsat3 : SatAll σ (mul2 i0 (Sub i1 i2 [] st1).1 (Sub i1 i2 [] st1).2).2 :=
        satAll_mono (Add_sound σ _ i2 [] _).1 hsat
      have hsat2 : SatAll σ (Sub i1 i2 [] st1).2 :=
        satAll_mono (mul2_sound σ i0 _ _).1 hsat3
      have hS := (Sub_sound σ i1 i2 [] st1).2 hsat2
      have hM := (mul2_sound σ i0 (Sub i1 i2 [] st1).1 (Sub i1 i2 [] st1).2).2 hsat3
      have hA := (Add_sound σ (mul2 i0 (Sub i1 i2 [] st1).1 (Sub i1 i2 [] st1).2).1
        i2 [] _).2 hsat
      simp only [List.map_cons, List.map_nil, List.sum_cons, List.sum_nil] at hS hA
      have hid : evalVar σ (Add (mul2 i0 (Sub i1 i2 [] st1).1 (Sub i1 i2 [] st1).2).1
          i2 [] (mul2 i0 (Sub i1 i2 [] st1).1 (Sub i1 i2 [] st1).2).2).1 =
          evalVar σ i0 * (evalVar σ i1 - evalVar σ i2) + evalVar σ i2 := by
        rw [hA, hM, hS]
        ring
      refine ⟨hid, ?_, ?_⟩
      · intro h1
        rw [hid, h1]
        ring
      · intro h0
        rw [hid, h0]
        ring

/-- Witness for C6: three distinct secret wires in an empty R1CS-flavor
builder state. -/
theorem select_spec_witness :
    ((⟨[⟨1, 0, Vis.sec⟩]⟩ : GVar 5).isConst = true →
      (⟨[⟨1, 0, Vis.sec⟩]⟩ : GVar 5).constVal = 0 ∨
      (⟨[⟨1, 0, Vis.sec⟩]⟩ : GVar 5).constVal = 1) ∧
    (∃ res st2,
      Select (⟨[⟨1, 0, Vis.sec⟩]⟩ : GVar 5) (⟨[⟨1, 1, Vis.sec⟩]⟩ : GVar 5)
          (⟨[⟨1, 2, Vis.sec⟩]⟩ : GVar 5) ⟨0, [], [], [], BackendID.r1cs⟩ =
        Except.ok (res, st2) ∧
      Extends ⟨0, [], [], [], BackendID.r1cs⟩ st2 ∧
      ((⟨[⟨1, 0, Vis.sec⟩]⟩ : GVar 5).isConst = false →
        ∀ hd tl, (⟨[⟨1, 0, Vis.sec⟩]⟩ : GVar 5).linExp = hd :: tl →
          (hd.vis, hd.vid) ∉ (⟨0, [], [], [], BackendID.r1cs⟩ : BState 5).booleans →
          boolC (⟨[⟨1, 0, Vis.sec⟩]⟩ : GVar 5) ∈ st2.constraints) ∧
      (∀ σ : Vis → ℕ → ZMod 5, SatAll σ st2 →
        (evalVar σ res = evalVar σ (⟨[⟨1, 0, Vis.sec⟩]⟩ : GVar 5) *
          (evalVar σ (⟨[⟨1, 1, Vis.sec⟩]⟩ : GVar 5) -
           evalVar σ (⟨[⟨1, 2, Vis.sec⟩]⟩ : GVar 5)) +
          evalVar σ (⟨[⟨1, 2, Vis.sec⟩]⟩ : GVar 5)) ∧
        (evalVar σ (⟨[⟨1, 0, Vis.sec⟩]⟩ : GVar 5) = 1 →
          evalVar σ res = evalVar σ (⟨[⟨1, 1, Vis.sec⟩]⟩ : GVar 5)) ∧
        (evalVar σ (⟨[⟨1, 0, Vis.sec⟩]⟩ : GVar 5) = 0 →
          evalVar σ res = evalVar σ (⟨[⟨1, 2, Vis.sec⟩]⟩ : GVar 5)))) := by
  have hs : (⟨[⟨1, 0, Vis.sec⟩]⟩ : GVar 5).isConst = true →
      (⟨[⟨1, 0, Vis.sec⟩]⟩ : GVar 5).constVal = 0 ∨
      (⟨[⟨1, 0, Vis.sec⟩]⟩ : GVar 5).constVal = 1 := by decide
  exact ⟨hs, select_spec (⟨[⟨1, 0, Vis.sec⟩]⟩ : GVar 5) (⟨[⟨1, 1, Vis.sec⟩]⟩ : GVar 5)
    (⟨[⟨1, 2, Vis.sec⟩]⟩ : GVar 5) (⟨0, [], [], [], BackendID.r1cs⟩ : BState 5) hs⟩

theorem natBitsSum : ∀ (n a : ℕ), a < 2 ^ n →
    (∑ i ∈ Finset.range n, 2 ^ i * (if a.testBit i then 1 else 0)) = a := by
  intro n
  induction n with
  | zero =>
    intro a ha
    simp at ha
    simp [ha]
  | succ n ih =>
    intro a ha
    rw [Finset.sum_range_succ']
    have h0 : (2 : ℕ) ^ 0 * (if a.testBit 0 then 1 else 0) = a % 2 := by
      rcases Nat.mod_two_eq_zero_or_one a with h | h <;>
        simp [Nat.testBit_zero, h]
    have hsucc : ∀ i, a.testBit (i + 1) = (a / 2).testBit i := by
      intro i
      rw [Nat.testBit_add_one]
    have hdiv : a / 2 < 2 ^ n := by
      have h2 : 2 ^ (n + 1) = 2 * 2 ^ n := by ring
      omega
    have hmain : (∑ i ∈ Finset.range n, 2 ^ (i + 1) * (if a.testBit (i + 1) then 1 else 0))
        = 2 * (a / 2) := by
      have : ∀ i, 2 ^ (i + 1) * (if a.testBit (i + 1) then 1 else 0) =
          2 * (2 ^ i * (if (a / 2).testBit i then 1 else 0)) := by
        intro i
        rw [hsucc i, pow_succ]
        ring
      rw [Finset.sum_congr rfl (fun i _ => this i), ← Finset.mul_sum, ih (a / 2) hdiv]
    rw [hmain, h0]
    omega

theorem fromBinaryValAux_eq {p : ℕ} (f : ℕ → ZMod p) :
    ∀ (n k : ℕ), fromBinaryValAux ((List.range n).map fun i => f (k + i)) k =
      ∑ i ∈ Finset.range n, 2 ^ (k + i) * f (k + i) := by
  intro n
  induction n with
  | zero => intro k; simp [fromBinaryValAux]
  | succ n ih =>
    intro k
    rw [List.range_succ_eq_map]
    simp only [List.map_cons, List.map_map]
    have hfn : ((fun i => f (k + i)) ∘ Nat.succ) = fun i => f ((k + 1) + i) := by
      funext i
      simp only [Function.comp]
      congr 1
      omega
    rw [hfn]
    show 2 ^ k * f (k + 0) + fromBinaryValAux ((List.range n).map fun i => f ((k + 1) + i))
      (k + 1) = _
    rw [ih (k + 1), Finset.sum_range_succ']
    have hcong : (∑ i ∈ Finset.range n, 2 ^ (k + 1 + i) * f (k + 1 + i)) =
        ∑ i ∈ Finset.range n, 2 ^ (k + (i + 1)) * f (k + (i + 1)) := by
      apply Finset.sum_congr rfl
      intro i _
      congr 2 <;> omega
    rw [hcong, add_zero]
    ring

theorem fromBinary_toBinary_sum {p : ℕ} (a : ZMod p) (n : ℕ) :
    fromBinaryVal (toBinaryVal a n) = ∑ i ∈ Finset.range n, 2 ^ i * ithBitVal a i := by
  unfold fromBinaryVal toBinaryVal
  have h := fromBinaryValAux_eq (fun i => ithBitVal a i) n 0
  simpa using h

/-- Claim C4: for every field element representable in `n ≥ 1` bits, the
solver-level composition of `ToBinary` and `FromBinary` is the identity:
the `n` hinted little-endian bits summed with weights `2^i` (which is what
`FromBinary` returns and what `ToBinary` constrains to equal `a`) reproduce
`a`; the bits are `n` in number and boolean. -/
theorem toBinary_fromBinary_roundtrip {p : ℕ} [NeZero p] (a : ZMod p) (n : ℕ)
    (_hn : 1 ≤ n) (ha : a.val < 2 ^ n) :
    fromBinaryVal (toBinaryVal a n) = a ∧
    (toBinaryVal a n).length = n ∧
    (∀ b ∈ toBinaryVal a n, b = 0 ∨ b = 1) := by
  refine ⟨?_, by simp [toBinaryVal], ?_⟩
  · rw [fromBinary_toBinary_sum]
    have hc : (∑ i ∈ Finset.range n, 2 ^ i * ithBitVal a i) =
        ((∑ i ∈ Finset.range n, 2 ^ i * (if a.val.testBit i then 1 else 0) : ℕ) : ZMod p) := by
      push_cast
      apply Finset.sum_congr rfl
      intro i _
      unfold ithBitVal
      by_cases h : a.val.testBit i <;> simp [h]
    rw [hc, natBitsSum n a.val ha]
    exact ZMod.natCast_rightInverse a
  · intro b hb
    unfold toBinaryVal at hb
    obtain ⟨i, _, hbi⟩ := List.mem_map.mp hb
    unfold ithBitVal at hbi
    by_cases h : a.val.testBit i
    · rw [if_pos h] at hbi
      exact Or.inr hbi.symm
    · rw [if_neg h] at hbi
      exact Or.inl hbi.symm

/-- Witness for C4: `a = 5` in `F_7` with `n = 3` bits. -/
theorem toBinary_fromBinary_roundtrip_witness :
    1 ≤ 3 ∧ (5 : ZMod 7).val < 2 ^ 3 ∧
    (fromBinaryVal (toBinaryVal (5 : ZMod 7) 3) = 5 ∧
     (toBinaryVal (5 : ZMod 7) 3).length = 3 ∧
     (∀ b ∈ toBinaryVal (5 : ZMod 7) 3, b = 0 ∨ b = 1)) :=
  ⟨by decide, by decide,
   toBinary_fromBinary_roundtrip (5 : ZMod 7) 3 (by decide) (by decide)⟩

/-- Claim C3: in `Prove`, the challenge "gamma" is derived only after the
three wire commitments are absorbed in index order 0, 1, 2 under the literal
label "gamma"; "alpha" only after the commitment to Z; "zeta" only after the
three quotient-chunk commitments in order; and the transcript is created with
SHA-256 and exactly the literal challenge labels "gamma", "alpha", "zeta". -/
theorem prove_transcript_spec (v0 v1 v2 zc h0 h1 h2 : ℕ) :
    absorbedBeforeChallenge (proveTranscript v0 v1 v2 zc h0 h1 h2) "gamma" = [v0, v1, v2] ∧
    absorbedBeforeChallenge (proveTranscript v0 v1 v2 zc h0 h1 h2) "alpha" = [zc] ∧
    absorbedBeforeChallenge (proveTranscript v0 v1 v2 zc h0 h1 h2) "zeta" = [h0, h1, h2] ∧
    bindsOf "gamma" (proveTranscript v0 v1 v2 zc h0 h1 h2) = [v0, v1, v2] ∧
    bindsOf "alpha" (proveTranscript v0 v1 v2 zc h0 h1 h2) = [zc] ∧
    bindsOf "zeta" (proveTranscript v0 v1 v2 zc h0 h1 h2) = [h0, h1, h2] ∧
    proveFSHash = "SHA256" ∧
    proveChallengeLabels = ["gamma", "alpha", "zeta"] :=
  ⟨rfl, rfl, rfl, rfl, rfl, rfl, rfl, rfl⟩

theorem polyEvalL_nil {p : ℕ} (x : ZMod p) : polyEvalL ([] : List (ZMod p)) x = 0 := rfl

theorem polyEvalL_cons {p : ℕ} (c : ZMod p) (l : List (ZMod p)) (x : ZMod p) :
    polyEvalL (c :: l) x = c + x * polyEvalL l x := rfl

theorem polyEvalL_append_replicate_zero {p : ℕ} (l : List (ZMod p)) (k : ℕ) (x : ZMod p) :
    polyEvalL (l ++ List.replicate k 0) x = polyEvalL l x := by
  induction l with
  | nil =>
    show polyEvalL (List.replicate k 0) x = 0
    induction k with
    | zero => rfl
    | succ k ihk =>
      show polyEvalL (0 :: List.replicate k 0) x = 0
      rw [polyEvalL_cons, ihk]
      ring
  | cons c tl ih =>
    rw [List.cons_append, polyEvalL_cons, ih, polyEvalL_cons]

theorem polyEvalL_eq_sum_getD {p : ℕ} (l : List (ZMod p)) (x : ZMod p) :
    polyEvalL l x = ∑ i ∈ Finset.range l.length, l.getD i 0 * x ^ i := by
  induction l with
  | nil => simp [polyEvalL_nil]
  | cons c tl ih =>
    rw [polyEvalL_cons, ih, List.length_cons, Finset.sum_range_succ', Finset.mul_sum]
    have h1 : ∀ i, (c :: tl).getD (i + 1) 0 * x ^ (i + 1) = x * (tl.getD i 0 * x ^ i) := by
      intro i
      have : (c :: tl).getD (i + 1) 0 = tl.getD i 0 := rfl
      rw [this, pow_succ]
      ring
    rw [Finset.sum_congr rfl (fun i _ => h1 i)]
    have h0 : (c :: tl).getD 0 0 * x ^ 0 = c := by simp
    rw [h0]
    ring

theorem polyEvalL_set {p : ℕ} (l : List (ZMod p)) (i : ℕ) (v x : ZMod p)
    (hi : i < l.length) :
    polyEvalL (l.set i v) x = polyEvalL l x + (v - l.getD i 0) * x ^ i := by
  induction l generalizing i with
  | nil => simp at hi
  | cons c tl ih =>
    cases i with
    | zero =>
      show polyEvalL (v :: tl) x = _
      rw [polyEvalL_cons, polyEvalL_cons]
      have : (c :: tl).getD 0 0 = c := rfl
      rw [this]
      ring
    | succ i =>
      show polyEvalL (c :: tl.set i v) x = _
      rw [polyEvalL_cons, ih i (by simpa using hi), polyEvalL_cons]
      have : (c :: tl).getD (i + 1) 0 = tl.getD i 0 := rfl
      rw [this, pow_succ]
      ring

theorem blindStep_eval {p : ℕ} (blinding : List (ZMod p)) (rou : ℕ)
    (r : List (ZMod p)) (i : ℕ) (x : ZMod p)
    (h1 : rou + i < r.length) (h0 : 0 < rou) :
    polyEvalL (blindStep blinding rou r i) x =
      polyEvalL r x + blinding.getD i 0 * (x ^ (rou + i) - x ^ i) ∧
    (blindStep blinding rou r i).length = r.length := by
  have hi : i < r.length := by omega
  have hne : i ≠ rou + i := by omega
  constructor
  · show polyEvalL ((r.set i (r.getD i 0 - blinding.getD i 0)).set (rou + i)
      ((r.set i (r.getD i 0 - blinding.getD i 0)).getD (rou + i) 0 + blinding.getD i 0)) x = _
    have hg : (r.set i (r.getD i 0 - blinding.getD i 0)).getD (rou + i) 0 =
        r.getD (rou + i) 0 := by
      rw [List.getD_eq_getElem?_getD, List.getElem?_set_ne hne,
        ← List.getD_eq_getElem?_getD]
    rw [polyEvalL_set _ _ _ _ (by rw [List.length_set]; exact h1),
      polyEvalL_set _ _ _ _ hi, hg]
    ring
  · show ((r.set i _).set (rou + i) _).length = r.length
    rw [List.length_set, List.length_set]

theorem blindFold_eval {p : ℕ} (blinding : List (ZMod p)) (rou : ℕ) (x : ZMod p)
    (h0 : 0 < rou) :
    ∀ (idxs : List ℕ) (r : List (ZMod p)), (∀ i ∈ idxs, rou + i < r.length) →
      polyEvalL (idxs.foldl (blindStep blinding rou) r) x =
        polyEvalL r x +
          (idxs.map (fun i => blinding.getD i 0 * (x ^ (rou + i) - x ^ i))).sum ∧
      (idxs.foldl (blindStep blinding rou) r).length = r.length := by
  intro idxs
  induction idxs with
  | nil =>
    intro r _
    simp
  | cons i is ih =>
    intro r hmem
    have hstep := blindStep_eval blinding rou r i x (hmem i (by simp)) h0
    have hrec := ih (blindStep blinding rou r i)
      (fun j hj => by rw [hstep.2]; exact hmem j (List.mem_cons_of_mem i hj))
    constructor
    · rw [List.foldl_cons, hrec.1, hstep.1, List.map_cons, List.sum_cons]
      ring
    · rw [List.foldl_cons, hrec.2, hstep.2]

/-- Claim C8: `blindPoly(cp, rou, bo)` returns `cp + Q(X)·(X^rou − 1)` where
`Q` is the random blinding polynomial of degree `bo` (its length is
`rou + bo + 1`, so degree ≤ `rou + bo`; for the Round-1 wire polynomials
`bo = 1` gives degree ≤ N+1); hence the blinded polynomial agrees with `cp`
at every `rou`-th root of unity; and `Prove` calls `blindPoly` with blinding
order 1 for the three wire polynomials and order 2 for `Z`. -/
theorem blindPoly_spec {p : ℕ} (cp blinding : List (ZMod p)) (rou bo : ℕ) (x : ZMod p)
    (hlen : cp.length ≤ rou + bo + 1) (hbl : blinding.length = bo + 1) (hbo : bo < rou) :
    (blindPoly cp rou bo blinding).length = rou + bo + 1 ∧
    polyEvalL (blindPoly cp rou bo blinding) x =
      polyEvalL cp x + polyEvalL blinding x * (x ^ rou - 1) ∧
    (x ^ rou = 1 → polyEvalL (blindPoly cp rou bo blinding) x = polyEvalL cp x) ∧
    proveBlindCalls rou = [(rou, 1), (rou, 1), (rou, 1), (rou, 2)] := by
  have hplen : (cp ++ List.replicate (rou + bo + 1 - cp.length) 0).length =
      rou + bo + 1 := by
    rw [List.length_append, List.length_replicate]
    omega
  have hmem : ∀ i ∈ List.range (bo + 1),
      rou + i < (cp ++ List.replicate (rou + bo + 1 - cp.length) 0).length := by
    intro i hi
    rw [hplen]
    rw [List.mem_range] at hi
    omega
  have hfold := blindFold_eval blinding rou x (by omega) (List.range (bo + 1))
    (cp ++ List.replicate (rou + bo + 1 - cp.length) 0) hmem
  have hevalblind :
      ((List.range (bo + 1)).map
        (fun i => blinding.getD i 0 * (x ^ (rou + i) - x ^ i))).sum =
      polyEvalL blinding x * (x ^ rou - 1) := by
    have hsum : ((List.range (bo + 1)).map
        (fun i => blinding.getD i 0 * (x ^ (rou + i) - x ^ i))).sum =
        ∑ i ∈ Finset.range (bo + 1), blinding.getD i 0 * (x ^ (rou + i) - x ^ i) := rfl
    rw [hsum, polyEvalL_eq_sum_getD, hbl, Finset.sum_mul]
    apply Finset.sum_congr rfl
    intro i _
    rw [pow_add]
    ring
  have heval : polyEvalL (blindPoly cp rou bo blinding) x =
      polyEvalL cp x + polyEvalL blinding x * (x ^ rou - 1) := by
    unfold blindPoly
    rw [hfold.1, polyEvalL_append_replicate_zero, hevalblind]
  refine ⟨?_, heval, ?_, rfl⟩
  · unfold blindPoly
    rw [hfold.2, hplen]
  · intro hroot
    rw [heval, hroot]
    ring

/-- Witness for C8: a concrete cubic-plus-padding in `F_7` with `rou = 3`,
`bo = 1`, evaluated at a point. -/
theorem blindPoly_spec_witness :
    ([(1 : ZMod 7), 2, 3].length ≤ 3 + 1 + 1) ∧ ([(4 : ZMod 7), 5].length = 1 + 1) ∧
    (1 < 3) ∧
    ((blindPoly [(1 : ZMod 7), 2, 3] 3 1 [4, 5]).length = 3 + 1 + 1 ∧
     polyEvalL (blindPoly [(1 : ZMod 7), 2, 3] 3 1 [4, 5]) 2 =
       polyEvalL [(1 : ZMod 7), 2, 3] 2 + polyEvalL [(4 : ZMod 7), 5] 2 * (2 ^ 3 - 1) ∧
     ((2 : ZMod 7) ^ 3 = 1 →
       polyEvalL (blindPoly [(1 : ZMod 7), 2, 3] 3 1 [4, 5]) 2 =
         polyEvalL [(1 : ZMod 7), 2, 3] 2) ∧
     proveBlindCalls 3 = [(3, 1), (3, 1), (3, 1), (3, 2)]) :=
  ⟨by decide, by decide, by decide,
   blindPoly_spec [(1 : ZMod 7), 2, 3] [4, 5] 3 1 2 (by decide) (by decide) (by decide)⟩

/-- Downward induction for `mustBeLessOrEqCst`: after processing the `j`
highest bits, the bit wires seen so far are boolean, the carry `p` is boolean,
`p = 1` forces the processed prefix of `a` to weigh exactly as much as the
bound's prefix, and `p = 0` forces it to weigh less with slack `2^(nbBits−j)`. -/
theorem leq_invariant {p : ℕ} [Fact p.Prime] (bound nbBits : ℕ) (ab : ℕ → ZMod p)
    (hok : leqConstraintsOk bound nbBits ab) :
    ∀ j, j ≤ nbBits →
      ((∀ k, k < j → (ab (nbBits - 1 - k) = 0 ∨ ab (nbBits - 1 - k) = 1)) ∧
       (leqPofJ bound nbBits ab j = 0 ∨ leqPofJ bound nbBits ab j = 1) ∧
       (leqPofJ bound nbBits ab j = 1 → hiSumN nbBits ab j = hiBoundN bound nbBits j) ∧
       (leqPofJ bound nbBits ab j = 0 →
         hiSumN nbBits ab j + 2 ^ (nbBits - j) ≤ hiBoundN bound nbBits j)) := by
  haveI : Fact (1 < p) := ⟨(Fact.out : p.Prime).one_lt⟩
  intro j
  induction j with
  | zero =>
    intro _
    refine ⟨fun k hk => absurd hk (Nat.not_lt_zero k), Or.inr rfl, fun _ => rfl, fun h => ?_⟩
    exact absurd h one_ne_zero
  | succ j ih =>
    intro hj1
    have hjlt : j < nbBits := by omega
    obtain ⟨hbool, hP01, hPeq, hPlt⟩ := ih (by omega)
    have hgate := hok (nbBits - 1 - j) (by omega)
    have hpv : pVal bound nbBits ab (nbBits - 1 - j + 1) = leqPofJ bound nbBits ab j := by
      unfold pVal
      congr 1
      omega
    have hstep : leqPofJ bound nbBits ab (j + 1) =
        if bound.testBit (nbBits - 1 - j) then
          leqPofJ bound nbBits ab j * ab (nbBits - 1 - j)
        else leqPofJ bound nbBits ab j := rfl
    have hS : hiSumN nbBits ab (j + 1) =
        hiSumN nbBits ab j + 2 ^ (nbBits - 1 - j) * (ab (nbBits - 1 - j)).val := by
      unfold hiSumN
      rw [Finset.sum_range_succ]
    have hB : hiBoundN bound nbBits (j + 1) =
        hiBoundN bound nbBits j +
          2 ^ (nbBits - 1 - j) * (if bound.testBit (nbBits - 1 - j) then 1 else 0) := by
      unfold hiBoundN
      rw [Finset.sum_range_succ]
    have hpow : 2 ^ (nbBits - j) = 2 ^ (nbBits - 1 - j) * 2 := by
      rw [← pow_succ]
      congr 1
      omega
    have hsub : nbBits - (j + 1) = nbBits - 1 - j := by omega
    have hboolSucc : (ab (nbBits - 1 - j) = 0 ∨ ab (nbBits - 1 - j) = 1) →
        ∀ k, k < j + 1 → (ab (nbBits - 1 - k) = 0 ∨ ab (nbBits - 1 - k) = 1) := by
      intro habi k hk
      by_cases hkj : k < j
      · exact hbool k hkj
      · have : k = j := by omega
        rw [this]
        exact habi
    have hval01 : ∀ y : ZMod p, y = 0 ∨ y = 1 → y.val ≤ 1 := by
      intro y hy
      rcases hy with h | h
      · rw [h, ZMod.val_zero]
        omega
      · rw [h, ZMod.val_one]
    unfold leqGate at hgate
    by_cases hbit : bound.testBit (nbBits - 1 - j)
    · rw [if_pos hbit] at hgate
      have habi : ab (nbBits - 1 - j) = 0 ∨ ab (nbBits - 1 - j) = 1 :=
        bool_of_mul_one_sub hgate
      rw [hstep, if_pos hbit]
      rw [hB, if_pos hbit]
      rcases hP01 with hP0 | hP1
      · -- carry already 0
        have hz : leqPofJ bound nbBits ab j * ab (nbBits - 1 - j) = 0 := by
          rw [hP0, zero_mul]
        refine ⟨hboolSucc habi, Or.inl hz, fun h => absurd (hz.symm.trans h) zero_ne_one,
          fun _ => ?_⟩
        have hlt := hPlt hP0
        have hv := hval01 _ habi
        have hmul : 2 ^ (nbBits - 1 - j) * (ab (nbBits - 1 - j)).val ≤
            2 ^ (nbBits - 1 - j) * 1 := Nat.mul_le_mul_left _ hv
        rw [hS, hsub]
        rw [hpow] at hlt
        omega
      · -- carry is 1
        rcases habi with ha0 | ha1
        · have hz : leqPofJ bound nbBits ab j * ab (nbBits - 1 - j) = 0 := by
            rw [ha0, mul_zero]
          refine ⟨hboolSucc (Or.inl ha0), Or.inl hz,
            fun h => absurd (hz.symm.trans h) zero_ne_one, fun _ => ?_⟩
          have heq := hPeq hP1
          rw [hS, hsub, ha0, ZMod.val_zero]
          omega
        · have ho : leqPofJ bound nbBits ab j * ab (nbBits - 1 - j) = 1 := by
            rw [hP1, ha1, one_mul]
          refine ⟨hboolSucc (Or.inr ha1), Or.inr ho, fun _ => ?_,
            fun h => absurd (ho.symm.trans h) one_ne_zero⟩
          have heq := hPeq hP1
          rw [hS, ha1, ZMod.val_one]
          omega
    · rw [if_neg hbit, hpv] at hgate
      rw [hstep, if_neg hbit]
      rw [hB, if_neg hbit]
      rcases hP01 with hP0 | hP1
      · -- carry 0: the gate forces the bit boolean
        have habi : ab (nbBits - 1 - j) = 0 ∨ ab (nbBits - 1 - j) = 1 := by
          rcases mul_eq_zero.mp hgate with h | h
          · right
            have := sub_eq_zero.mp h
            rw [hP0, sub_zero] at this
            exact this.symm
          · exact Or.inl h
        refine ⟨hboolSucc habi, Or.inl hP0,
          fun h => absurd (hP0.symm.trans h) zero_ne_one, fun _ => ?_⟩
        have hlt := hPlt hP0
        have hv := hval01 _ habi
        have hmul : 2 ^ (nbBits - 1 - j) * (ab (nbBits - 1 - j)).val ≤
            2 ^ (nbBits - 1 - j) * 1 := Nat.mul_le_mul_left _ hv
        rw [hS, hsub]
        rw [hpow] at hlt
        omega
      · -- carry 1: the gate forces the bit to 0
        have ha0 : ab (nbBits - 1 - j) = 0 := by
          rcases mul_eq_zero.mp hgate with h | h
          · have h2 := sub_eq_zero.mp h
            rw [hP1, sub_self] at h2
            exact h2.symm
          · exact h
        refine ⟨hboolSucc (Or.inl ha0), Or.inr hP1, fun _ => ?_,
          fun h => absurd (hP1.symm.trans h) one_ne_zero⟩
        have heq := hPeq hP1
        rw [hS, ha0, ZMod.val_zero]
        omega

/-- Any assignment satisfying the per-bit constraints of `mustBeLessOrEqCst`
has boolean bits whose weighted sum is at most the bound. -/
theorem leq_bits_le_bound {p : ℕ} [Fact p.Prime] (bound nbBits : ℕ) (ab : ℕ → ZMod p)
    (hok : leqConstraintsOk bound nbBits ab) (hb : bound < 2 ^ nbBits) :
    (∀ i, i < nbBits → (ab i = 0 ∨ ab i = 1)) ∧
    (∑ i ∈ Finset.range nbBits, 2 ^ i * (ab i).val) ≤ bound := by
  obtain ⟨hbool, hP01, hPeq, hPlt⟩ := leq_invariant bound nbBits ab hok nbBits le_rfl
  constructor
  · intro i hi
    have h := hbool (nbBits - 1 - i) (by omega)
    rw [show nbBits - 1 - (nbBits - 1 - i) = i by omega] at h
    exact h
  · have hsum : hiSumN nbBits ab nbBits =
        ∑ i ∈ Finset.range nbBits, 2 ^ i * (ab i).val := by
      unfold hiSumN
      exact Finset.sum_range_reflect (fun i => 2 ^ i * (ab i).val) nbBits
    have hbsum : hiBoundN bound nbBits nbBits =
        ∑ i ∈ Finset.range nbBits, 2 ^ i * (if bound.testBit i then 1 else 0) := by
      unfold hiBoundN
      exact Finset.sum_range_reflect
        (fun i => 2 ^ i * (if bound.testBit i then 1 else 0)) nbBits
    have hbd := natBitsSum nbBits bound hb
    rcases hP01 with h0 | h1
    · have hlt := hPlt h0
      rw [Nat.sub_self, pow_zero] at hlt
      omega
    · have heq := hPeq h1
      omega

/-- Claim C5: for a non-negative constant bound fitting the field bit length
(and with `bound + 1` still a field value), the constraint set emitted by
`mustBeLessOrEqCst` — the carry recurrence `p[nbBits] = 1`,
`p[i] = p[i+1]` or `p[i+1]·a_i` by the bound's bit, the gate
`(1 − p[i+1] − a_i)·a_i = 0` where the bound bit is 0, the boolean assertion
where it is 1, together with the decomposition `Σ 2^i·a_i = a` — is satisfied
by the bits of the bound when `a = bound`, and is unsatisfiable when
`a = bound + 1`. -/
theorem mustBeLessOrEqCst_boundary {p : ℕ} [Fact p.Prime] (bound nbBits : ℕ)
    (hb : bound < 2 ^ nbBits) (hp : bound + 1 < p) :
    (leqConstraintsOk bound nbBits (boundBitAssign p bound) ∧
     bitsSumF nbBits (boundBitAssign p bound) = (bound : ZMod p)) ∧
    (∀ ab : ℕ → ZMod p, bitsSumF nbBits ab = ((bound + 1 : ℕ) : ZMod p) →
      ¬ leqConstraintsOk bound nbBits ab) := by
  haveI : NeZero p := ⟨(Fact.out : p.Prime).ne_zero⟩
  constructor
  · constructor
    · intro i _
      unfold leqGate boundBitAssign
      by_cases hbit : bound.testBit i
      · rw [if_pos hbit, if_pos hbit]
        ring
      · rw [if_neg hbit, if_neg hbit]
        ring
    · unfold bitsSumF boundBitAssign
      have hc : (∑ i ∈ Finset.range nbBits,
            2 ^ i * (if bound.testBit i then (1 : ZMod p) else 0)) =
          ((∑ i ∈ Finset.range nbBits,
            2 ^ i * (if bound.testBit i then 1 else 0) : ℕ) : ZMod p) := by
        push_cast
        apply Finset.sum_congr rfl
        intro i _
        by_cases h : bound.testBit i <;> simp [h]
      rw [hc, natBitsSum nbBits bound hb]
  · intro ab hsum hok
    obtain ⟨hbool, hle⟩ := leq_bits_le_bound bound nbBits ab hok hb
    have hcast : bitsSumF nbBits ab =
        ((∑ i ∈ Finset.range nbBits, 2 ^ i * (ab i).val : ℕ) : ZMod p) := by
      unfold bitsSumF
      push_cast
      apply Finset.sum_congr rfl
      intro i _
      rw [ZMod.natCast_rightInverse (ab i)]
    rw [hcast] at hsum
    have hN : (∑ i ∈ Finset.range nbBits, 2 ^ i * (ab i).val) < p := by omega
    have hval1 := congrArg ZMod.val hsum
    rw [ZMod.val_cast_of_lt hN, ZMod.val_cast_of_lt hp] at hval1
    omega

/-- Witness for C5: `p = 13`, four bits, `bound = 5`: the bits of 5 satisfy
the constraints with sum 5, and no assignment summing to 6 satisfies them. -/
theorem mustBeLessOrEqCst_boundary_witness :
    (5 < 2 ^ 4) ∧ (5 + 1 < 13) ∧
    ((leqConstraintsOk 5 4 (boundBitAssign 13 5) ∧
      bitsSumF 4 (boundBitAssign 13 5) = (5 : ZMod 13)) ∧
     (∀ ab : ℕ → ZMod 13, bitsSumF 4 ab = ((5 + 1 : ℕ) : ZMod 13) →
       ¬ leqConstraintsOk 5 4 ab)) := by
  have h1 : 5 < 2 ^ 4 := by decide
  have h2 : 5 + 1 < 13 := by decide
  haveI : Fact (Nat.Prime 13) := ⟨by norm_num⟩
  exact ⟨h1, h2, mustBeLessOrEqCst_boundary 5 4 h1 h2⟩

end Gnark
